import Mathlib

/-!
Verification of the remote-core mirroring library (danimoh/core).

The development shallowly embeds the JavaScript sources:
 * `Observable` (event bus with `on`/`off`/`once`/`fire`),
 * `RemoteConnection` (reconnecting WebSocket wrapper with a persistent
   replay list and an ephemeral send queue),
 * `RemoteClass` (generic mirrored entity with idempotent wire
   registration bookkeeping),
 * `RemoteAccounts` (keyed, per-address subscriptions),
 * `RemoteBlockchain` (incremental head tracking with periodic resync),
 * the server-side `RemoteAPI` hub (listener registry and broadcast).

Callbacks are represented by opaque numeric identities (JavaScript closure
identity), messages by opaque payloads.  Mutation is made explicit by step
functions from states to states paired with the list of wire commands or
transmissions the step emits.  All definitions are computable so concrete
runs evaluate by `decide` / `rfl`.
-/

/-! ## JavaScript string helpers (`toLowerCase`, the `/[^0-9a-f]/` hex test) -/

/-- `String.prototype.toLowerCase` restricted to its ASCII behaviour,
as used on event names and hex addresses in `RemoteAccounts`. -/
def jsToLower (s : String) : String :=
  ⟨s.data.map Char.toLower⟩

/-- One character of the `RemoteAccounts._isHex` test: the regular
expression `/[^0-9a-f]/` fails to match iff every char is in `[0-9a-f]`. -/
def isHexChar (c : Char) : Bool :=
  ('0' ≤ c && c ≤ '9') || ('a' ≤ c && c ≤ 'f')

/-- `RemoteAccounts._isHex(str)`: `!(/[^0-9a-f]/.test(str))`. -/
def isHex (s : String) : Bool :=
  s.data.all isHexChar

/-! ## Wire commands

`RemoteClass.on`/`off` and `RemoteAccounts.on`/`off` send JSON commands of
shape `{command, type, address?}` through `RemoteConnection.send(msg, true)`
(persistent).  We keep the fields symbolically. -/

structure WireCmd where
  command : String
  type : String
  address : Option String
  persistent : Bool
deriving Repr, DecidableEq

def countRegister (cs : List WireCmd) : Nat :=
  (cs.filter fun c => c.command == "register-listener").length

def countUnregister (cs : List WireCmd) : Nat :=
  (cs.filter fun c => c.command == "unregister-listener").length

/-! ## JavaScript string-keyed tables

Both `Observable._listeners` and the hub's `RemoteAPI._listeners` are plain
objects used as string-keyed tables; insertion keeps key order, assignment
replaces the value in place.  We model them as ordered association lists. -/

def getEntry? (L : List (String × List Nat)) (t : String) : Option (List Nat) :=
  match L.find? (fun q => q.1 == t) with
  | some q => some q.2
  | none => none

def setEntry : List (String × List Nat) → String → List Nat → List (String × List Nat)
  | [], t, v => [(t, v)]
  | q :: rest, t, v => if q.1 == t then (t, v) :: rest else q :: setEntry rest t v

/-! ## RemoteConnection (claims C3, C10)

State of the wrapper: whether the underlying WebSocket is open, the
ephemeral `_sendQueue`, and the `_persistentMessages` replay list.
Serialized messages are opaque (`Nat`); `JSON.stringify` of the same
message value is the same string. -/

namespace Conn

structure State where
  connected : Bool
  sendQueue : List Nat
  persistentMessages : List Nat
deriving Repr, DecidableEq

def init : State := ⟨false, [], []⟩

inductive Op where
  | send (msg : Nat) (persistent : Bool)
  | wsOpen
  | wsClose
deriving Repr, DecidableEq

/-- One event of the connection, returning the new state and the list of
messages put on the wire (`this._ws.send(...)` calls) by that event.

* `send` follows `RemoteConnection.send`: a persistent message is appended
  to `_persistentMessages`; if connected the message is transmitted at
  once, otherwise a non-persistent message is queued in `_sendQueue`.
* `wsOpen` is the `onopen` handler of `_setupWebSocket`: it retransmits
  every persistent message in order, then flushes the send queue in FIFO
  order and clears it.
* `wsClose` is the `onclose` handler: the socket handle is reset. -/
def step (s : State) : Op → State × List Nat
  | .send m p =>
    let s₁ : State :=
      { s with persistentMessages :=
          if p then s.persistentMessages ++ [m] else s.persistentMessages }
    if s₁.connected then (s₁, [m])
    else if p then (s₁, [])
    else ({ s₁ with sendQueue := s₁.sendQueue ++ [m] }, [])
  | .wsOpen =>
    ({ s with connected := true, sendQueue := [] },
      s.persistentMessages ++ s.sendQueue)
  | .wsClose => ({ s with connected := false }, [])

/-- Run a list of events, collecting the per-event transmissions. -/
def runT (s : State) : List Op → State × List (List Nat)
  | [] => (s, [])
  | op :: ops =>
    let p := step s op
    let q := runT p.1 ops
    (q.1, p.2 :: q.2)

/-- The messages of `ops` sent with `persistent = true`, in order. -/
def persistentOf (ops : List Op) : List Nat :=
  ops.filterMap fun op =>
    match op with
    | .send m true => some m
    | _ => none

/-- The state after a batch of `send` calls issued from the initial,
never-yet-connected state. -/
def sendPhase (sends : List (Nat × Bool)) : State :=
  (runT init (sends.map fun x => Op.send x.1 x.2)).1

/-- The first successful connection after those sends: the new state and
the messages transmitted by the `onopen` handler. -/
def firstOpen (sends : List (Nat × Bool)) : State × List Nat :=
  step (sendPhase sends) Op.wsOpen

end Conn

/-! ## RemoteClass wire-registration bookkeeping (claim C1)

`RemoteClass.on(type, cb, lazyRegister)` and `off(type, cb)` for one fixed
local event type whose mapped server event (`_inverseEventMap[type] || type`)
is `e`.  The state holds the slice of the instance relevant to that type:
whether `type in this._listeners` (the entry, once created, persists even
when emptied), the listener array itself, and whether `e` is in
`_registeredServerEvents`.  The local event type is assumed valid for the
entity (otherwise `Observable.on` throws before any of the bookkeeping
below runs, leaving the state untouched). -/

namespace RClass

structure St where
  hasEntry : Bool
  listeners : List Nat
  registered : Bool
deriving Repr, DecidableEq

def init : St := ⟨false, [], false⟩

inductive Op where
  | onEv (cb : Nat) (lazy : Bool)
  | offEv (cb : Nat)
deriving Repr, DecidableEq

/-- Whether a call is an `on` with the defer/lazyRegister flag set. -/
def Op.isLazyOn : Op → Bool
  | .onEv _ true => true
  | _ => false

/-- One `on`/`off` call.  `on` first runs `Observable.on` (create the entry
if needed, push the callback), then unless `lazyRegister` is set and unless
the server event is already registered it records it and sends a persistent
`register-listener` command.  `off` first runs `Observable.off` (remove the
first matching callback if the entry exists), then if the entry exists, is
now empty and the server event is registered, it unregisters and sends a
persistent `unregister-listener` command. -/
def step (e : String) (s : St) : Op → St × List WireCmd
  | .onEv cb lazy =>
    let s₁ : St := { s with hasEntry := true, listeners := s.listeners ++ [cb] }
    if !lazy && !s₁.registered then
      ({ s₁ with registered := true }, [⟨"register-listener", e, none, true⟩])
    else (s₁, [])
  | .offEv cb =>
    let l := if s.hasEntry then s.listeners.erase cb else s.listeners
    let s₁ : St := { s with listeners := l }
    if s₁.hasEntry && l.isEmpty && s₁.registered then
      ({ s₁ with registered := false }, [⟨"unregister-listener", e, none, true⟩])
    else (s₁, [])

def run (e : String) (s : St) : List Op → St × List WireCmd
  | [] => (s, [])
  | op :: ops =>
    let p := step e s op
    let q := run e p.1 ops
    (q.1, p.2 ++ q.2)

/-- Along the run of `ops`, the number of steps at which the local listener
count for the type goes zero→nonzero (first component) and nonzero→zero
(second component). -/
def transitions (e : String) (s : St) : List Op → Nat × Nat
  | [] => (0, 0)
  | op :: ops =>
    let s' := (step e s op).1
    let r := transitions e s' ops
    ((if s.listeners.isEmpty && !s'.listeners.isEmpty then 1 else 0) + r.1,
     (if !s.listeners.isEmpty && s'.listeners.isEmpty then 1 else 0) + r.2)

end RClass

/-! ## RemoteAccounts keyed subscriptions (claims C2, C8)

Full state of a `RemoteAccounts` instance: the `Observable` listener table,
the inherited `_registeredServerEvents` set and the keyed
`_registeredAccountListeners` set.  `on` may throw (`Except.error`) via
`Observable.on` when the event type is neither a hex address nor a
supported plain event. -/

namespace RAcc

/-- `Object.values(RemoteAccounts.EVENT_MAP)`, the `validEvents` the
`Observable` constructor receives. -/
def accountsValidEvents : List String := ["populated"]

/-- `RemoteAccounts._isValidEvent`. -/
def isValidEventAcc (t : String) : Bool :=
  if isHex (jsToLower t) then true else accountsValidEvents.contains (jsToLower t)

/-- `this._inverseEventMap[type] || type` for `RemoteAccounts`. -/
def accountsInverseEventMap (t : String) : String :=
  if t == "populated" then "accounts-populated" else t

def accountsAccountChanged : String := "accounts-account-changed"

/-- `Observable.on` after the validity check: create the entry if absent,
push the callback. -/
def obsOn (L : List (String × List Nat)) (t : String) (cb : Nat) :
    List (String × List Nat) :=
  setEntry L t (((getEntry? L t).getD []) ++ [cb])

/-- `Observable.off`: no-op when the entry is absent, else remove the first
matching callback. -/
def obsOff (L : List (String × List Nat)) (t : String) (cb : Nat) :
    List (String × List Nat) :=
  match getEntry? L t with
  | none => L
  | some e => setEntry L t (e.erase cb)

structure St where
  listeners : List (String × List Nat)
  regServer : List String
  regAccount : List String
deriving Repr, DecidableEq

def init : St := ⟨[], [], []⟩

inductive Op where
  | onEv (key : String) (cb : Nat) (lazy : Bool)
  | offEv (key : String) (cb : Nat)
deriving Repr, DecidableEq

/-- The event type / key argument of a call. -/
def Op.key : Op → String
  | .onEv k _ _ => k
  | .offEv k _ => k

/-- Whether a call is an `on` with the defer/lazyRegister flag set. -/
def Op.isLazyOn : Op → Bool
  | .onEv _ _ true => true
  | _ => false

/-- `RemoteAccounts.on`: lowercase the type; a hex address is registered
directly with `Observable.on` and, unless deferred or already present in
`_registeredAccountListeners`, triggers one persistent keyed
`register-listener` command; a plain type goes through `RemoteClass.on`,
whose `Observable.on` throws for unsupported types. -/
def stepOn (s : St) (key : String) (cb : Nat) (lazy : Bool) :
    Except String (St × List WireCmd) :=
  let t := jsToLower key
  if isHex t then
    let s₁ : St := { s with listeners := obsOn s.listeners t cb }
    if !lazy && !s₁.regAccount.contains t then
      .ok ({ s₁ with regAccount := s₁.regAccount ++ [t] },
        [⟨"register-listener", accountsAccountChanged, some t, true⟩])
    else .ok (s₁, [])
  else
    if isValidEventAcc t then
      let s₁ : St := { s with listeners := obsOn s.listeners t cb }
      let se := accountsInverseEventMap t
      if !lazy && !s₁.regServer.contains se then
        .ok ({ s₁ with regServer := s₁.regServer ++ [se] },
          [⟨"register-listener", se, none, true⟩])
      else .ok (s₁, [])
    else .error ("Unsupported Event Type " ++ t)

/-- `RemoteAccounts.off`: lowercase the type; a hex address is removed with
`Observable.off` and, when its entry exists, is empty and the key is in
`_registeredAccountListeners`, one persistent keyed `unregister-listener`
command is sent; a plain type goes through `RemoteClass.off`. -/
def stepOff (s : St) (key : String) (cb : Nat) : St × List WireCmd :=
  let t := jsToLower key
  if isHex t then
    let L := obsOff s.listeners t cb
    let s₁ : St := { s with listeners := L }
    match getEntry? L t with
    | some e =>
      if e.isEmpty && s₁.regAccount.contains t then
        ({ s₁ with regAccount := s₁.regAccount.erase t },
          [⟨"unregister-listener", accountsAccountChanged, some t, true⟩])
      else (s₁, [])
    | none => (s₁, [])
  else
    let L := obsOff s.listeners t cb
    let s₁ : St := { s with listeners := L }
    let se := accountsInverseEventMap t
    match getEntry? L t with
    | some e =>
      if e.isEmpty && s₁.regServer.contains se then
        ({ s₁ with regServer := s₁.regServer.erase se },
          [⟨"unregister-listener", se, none, true⟩])
      else (s₁, [])
    | none => (s₁, [])

def stepAcc (s : St) : Op → Except String (St × List WireCmd)
  | .onEv k cb l => stepOn s k cb l
  | .offEv k cb => .ok (stepOff s k cb)

def runAcc (s : St) : List Op → Except String (St × List WireCmd)
  | [] => .ok (s, [])
  | op :: ops =>
    match stepAcc s op with
    | .error e => .error e
    | .ok (s', cs) =>
      match runAcc s' ops with
      | .error e => .error e
      | .ok (s'', cs') => .ok (s'', cs ++ cs')

/-- The local listener count of key `k`. -/
def countK (s : St) (k : String) : Nat :=
  ((getEntry? s.listeners k).getD []).length

/-- zero→nonzero and nonzero→zero transition counts of `countK · k` along a
run (stopping at an exception like the run itself). -/
def transitionsAcc (k : String) (s : St) : List Op → Nat × Nat
  | [] => (0, 0)
  | op :: ops =>
    match stepAcc s op with
    | .error _ => (0, 0)
    | .ok (s', _) =>
      let r := transitionsAcc k s' ops
      ((if countK s k == 0 && countK s' k != 0 then 1 else 0) + r.1,
       (if countK s k != 0 && countK s' k == 0 then 1 else 0) + r.2)

end RAcc

/-! ## RemoteBlockchain head tracking (claim C7) -/

namespace Chain

structure HeadInfo where
  hsh : Nat
  difficulty : Nat
deriving Repr, DecidableEq

structure St where
  head : HeadInfo
  headHash : Nat
  height : Nat
  totalWork : Nat
deriving Repr, DecidableEq

/-- The `head-changed` handler registered in `RemoteBlockchain`'s
constructor: store the new head and its hash, increment the mirrored
height, add the head's difficulty to the total work, and, when the
resulting height is divisible by 20, issue a full-state resync request
(`this._updateState()`).  The boolean reports whether that request was
issued. -/
def headChanged (s : St) (h : HeadInfo) : St × Bool :=
  let s₁ : St :=
    { head := h, headHash := h.hsh, height := s.height + 1,
      totalWork := s.totalWork + h.difficulty }
  (s₁, s₁.height % 20 == 0)

/-- Process a stream of `head-changed` events, collecting per-event
whether a full-state request was issued. -/
def runHeads (s : St) : List HeadInfo → St × List Bool
  | [] => (s, [])
  | h :: hs =>
    let p := headChanged s h
    let q := runHeads p.1 hs
    (q.1, p.2 :: q.2)

end Chain

/-! ## Server-side hub: registry and broadcast (claims C5, C6)

The first `RemoteAPI` class of `src/clients/nodejs/remote-api.js`.
Sockets are opaque identities; whether a socket's `readyState` is `OPEN`
at broadcast time is an external predicate. -/

namespace Hub

structure WireMsg where
  type : String
  data : Option Nat
deriving Repr, DecidableEq

structure St where
  listeners : List (String × List Nat)
deriving Repr, DecidableEq

def init : St := ⟨[]⟩

/-- `RemoteAPI._isValidListenerType`'s allow-list. -/
def hubValidListenerTypes : List String :=
  ["balance-changed", "consensus-established", "consensus-lost",
   "consensus-syncing", "blockchain-head-changed", "network-peers-changed",
   "mempool-transaction-added", "mempool-transactions-ready",
   "miner-started", "miner-stopped", "miner-hashrate-changed",
   "miner-block-mined"]

/-- `RemoteAPI._registerListener`: reject invalid types (error reply only,
registry untouched); otherwise create the entry if needed and add the
socket to the `Set`. -/
def registerListener (st : St) (ws : Nat) (t : String) : St :=
  if hubValidListenerTypes.contains t then
    let e := (getEntry? st.listeners t).getD []
    if e.contains ws then st
    else { listeners := setEntry st.listeners t (e ++ [ws]) }
  else st

/-- `RemoteAPI._unregisterListener`: reject invalid types; otherwise
delete the socket from the entry when the entry exists. -/
def unregisterListener (st : St) (ws : Nat) (t : String) : St :=
  if hubValidListenerTypes.contains t then
    match getEntry? st.listeners t with
    | some e => { listeners := setEntry st.listeners t (e.erase ws) }
    | none => st
  else st

/-- `RemoteAPI._unregisterListeners`: for every key of the registry,
`_unregisterListener(ws, type)` (keys hold valid types, for which this
deletes the socket from the entry). -/
def unregisterListeners (st : St) (ws : Nat) : St :=
  { listeners := st.listeners.map fun q =>
      if hubValidListenerTypes.contains q.1 then (q.1, q.2.erase ws) else q }

inductive ClientCmd where
  | register (t : String)
  | unregister (t : String)
deriving Repr, DecidableEq

inductive Ev where
  | msg (ws : Nat) (c : ClientCmd)
  | close (ws : Nat)
deriving Repr, DecidableEq

/-- Socket events as the server observes them.  `_onConnection`
(remote-api.js, first class) installs only a `message` handler on the
socket; no `close` handler is ever installed, so a closing socket leaves
the registry untouched. -/
def hubStep (st : St) : Ev → St
  | .msg ws (.register t) => registerListener st ws t
  | .msg ws (.unregister t) => unregisterListener st ws t
  | .close _ => st

def hubRun (st : St) : List Ev → St
  | [] => st
  | e :: es => hubRun (hubStep st e) es

/-- `RemoteAPI._broadcast(type, data)`: absent registry entry → return
immediately; otherwise serialize `{type, data}` once and send it to every
socket of the entry whose `readyState` is `OPEN`. -/
def broadcast (st : St) (openWs : Nat → Bool) (t : String) (d : Option Nat) :
    List (Nat × WireMsg) :=
  match getEntry? st.listeners t with
  | none => []
  | some e => (e.filter openWs).map fun ws => (ws, ⟨t, d⟩)

end Hub

/-! ## Observable fire/once/request (claims C9, C4)

`Observable.fire` iterates `this._listeners[type]` with
`Array.prototype.forEach`, which captures the length once and checks
presence of each index against the live array, while the `once` wrapper
and the `request` callback remove themselves (`Observable.off`, removal by
closure identity) during the iteration.  Handlers carry numeric closure
identities; `eraseId` removes the first handler with the given identity.
Payloads are inbound messages `{type, data}` with opaque `data : α`. -/

namespace Obs

structure Msg (α : Type) where
  type : String
  data : α
deriving Repr, DecidableEq

/-- `request`'s `expectedMessage`: a string (matched against the message
type) or a predicate over the decoded message. -/
inductive Matcher (α : Type) where
  | byType (s : String)
  | byPred (p : Msg α → Bool)

def mmatches {α : Type} : Matcher α → Msg α → Bool
  | .byType s, m => m.type == s
  | .byPred p, m => p m

/-- A listener as stored in `this._listeners[type]`:
* `direct cb` — a plain callback registered by `on`,
* `onceH id cb` — the self-removing wrapper created by `once(type, cb)`
  (`id` is the wrapper closure's identity),
* `requestH id mr` — the self-removing resolver registered by
  `request(msg, matcher)`. -/
inductive Handler (α : Type) where
  | direct (cb : Nat)
  | onceH (id : Nat) (cb : Nat)
  | requestH (id : Nat) (mr : Matcher α)

def hid {α : Type} : Handler α → Nat
  | .direct cb => cb
  | .onceH id _ => id
  | .requestH id _ => id

/-- Observable effects of a fire: a callback invocation with the argument
it receives (`none` = called with no argument, i.e. `undefined`), or the
resolution of a request's promise with the matching message's `data`. -/
inductive Ev (α : Type) where
  | call (h : Handler α) (arg : Option (Msg α))
  | resolve (id : Nat) (data : α)

/-- `Observable.off` by closure identity: remove the first handler whose
identity matches. -/
def eraseId {α : Type} : List (Handler α) → Nat → List (Handler α)
  | [], _ => []
  | h :: hs, i => if hid h == i then hs else h :: eraseId hs i

/-- One `forEach` iteration step at index `k` over the live array `L`.
`fuel` is the length captured at the start of the iteration; an index past
the live array is skipped (and since handlers are only ever removed, every
later index is also out of range, so iteration stops).

* a `direct` callback receives the fired message;
* the `once` wrapper calls its callback with no argument, then removes
  itself from the live array;
* the `request` callback checks its matcher; on a match it removes itself
  and resolves with the message's `data`, otherwise it does nothing. -/
def fireAux {α : Type} (msg : Msg α) :
    Nat → Nat → List (Handler α) → List (Handler α) × List (Ev α)
  | 0, _, L => (L, [])
  | fuel+1, k, L =>
    match L[k]? with
    | none => (L, [])
    | some h =>
      match h with
      | .direct cb =>
        let r := fireAux msg fuel (k+1) L
        (r.1, .call (.direct cb) (some msg) :: r.2)
      | .onceH id cb =>
        let r := fireAux msg fuel (k+1) (eraseId L id)
        (r.1, .call (.onceH id cb) none :: r.2)
      | .requestH id mr =>
        if mmatches mr msg then
          let r := fireAux msg fuel (k+1) (eraseId L id)
          (r.1, .resolve id msg.data :: r.2)
        else
          fireAux msg fuel (k+1) L

/-- `Observable.fire(type, msg)` on the listener array of one type. -/
def fire {α : Type} (L : List (Handler α)) (msg : Msg α) :
    List (Handler α) × List (Ev α) :=
  fireAux msg L.length 0 L

/-- Deliver a sequence of inbound messages, one `fire` each. -/
def multiFire {α : Type} (L : List (Handler α)) :
    List (Msg α) → List (Handler α) × List (Ev α)
  | [] => (L, [])
  | m :: ms =>
    let p := fire L m
    let q := multiFire p.1 ms
    (q.1, p.2 ++ q.2)

/-- Arguments passed to the callback of the once-wrapper `(id, cb)`. -/
def onceCallArgs {α : Type} (id cb : Nat) (t : List (Ev α)) :
    List (Option (Msg α)) :=
  t.filterMap fun e =>
    match e with
    | .call (.onceH i c) a => if i == id && c == cb then some a else none
    | _ => none

/-- Arguments passed to the directly registered callback `cb`. -/
def directCallArgs {α : Type} (cb : Nat) (t : List (Ev α)) :
    List (Option (Msg α)) :=
  t.filterMap fun e =>
    match e with
    | .call (.direct c) a => if c == cb then some a else none
    | _ => none

/-- Data values with which request `id` was resolved. -/
def resolutionsFor {α : Type} (id : Nat) (t : List (Ev α)) : List α :=
  t.filterMap fun e =>
    match e with
    | .resolve i d => if i == id then some d else none
    | _ => none

/-- Occurrences of the once-wrapper `(id, cb)` in a listener array. -/
def countOnce {α : Type} (id cb : Nat) (L : List (Handler α)) : Nat :=
  (L.filter fun h =>
    match h with
    | .onceH i c => i == id && c == cb
    | _ => false).length

/-- Occurrences of request `id` in a listener array. -/
def countReq {α : Type} (id : Nat) (L : List (Handler α)) : Nat :=
  (L.filter fun h =>
    match h with
    | .requestH i _ => i == id
    | _ => false).length

def isDirect {α : Type} : Handler α → Bool
  | .direct _ => true
  | _ => false

end Obs

/-! # Theorems -/

theorem charToLower_idem (c : Char) :
    Char.toLower (Char.toLower c) = Char.toLower c := by
  simp only [Char.toLower]
  split
  · next h =>
    have hv : Nat.isValidChar (c.toNat + 32) := Or.inl (by omega)
    have ht : (Char.ofNat (c.toNat + 32)).toNat = c.toNat + 32 := by
      rw [Char.ofNat, dif_pos hv]; rfl
    rw [ht, if_neg (by omega)]
  · rfl

theorem jsToLower_idem (s : String) : jsToLower (jsToLower s) = jsToLower s := by
  simp only [jsToLower, List.map_map]
  exact congrArg String.mk (List.map_congr_left fun a _ => charToLower_idem a)

namespace Conn

theorem step_persistent (s : State) (op : Op) :
    (step s op).1.persistentMessages = s.persistentMessages ++ persistentOf [op] := by
  cases op with
  | send m p =>
    cases p <;> simp only [step, persistentOf, List.filterMap] <;>
      split <;> simp
  | wsOpen => simp [step, persistentOf]
  | wsClose => simp [step, persistentOf]

theorem persistentOf_cons (op : Op) (ops : List Op) :
    persistentOf (op :: ops) = persistentOf [op] ++ persistentOf ops := by
  cases op with
  | send m p => cases p <;> simp [persistentOf, List.filterMap_cons]
  | wsOpen => simp [persistentOf, List.filterMap_cons]
  | wsClose => simp [persistentOf, List.filterMap_cons]

theorem persistentOf_append (xs ys : List Op) :
    persistentOf (xs ++ ys) = persistentOf xs ++ persistentOf ys := by
  simp [persistentOf, List.filterMap_append]

theorem runT_persistent (s : State) (ops : List Op) :
    (runT s ops).1.persistentMessages =
      s.persistentMessages ++ persistentOf ops := by
  induction ops generalizing s with
  | nil => simp [runT, persistentOf]
  | cons op ops ih =>
    rw [runT, ih, step_persistent, List.append_assoc, ← persistentOf_cons]

theorem runT_sends (s : State) (hs : s.connected = false)
    (sends : List (Nat × Bool)) :
    (runT s (sends.map fun x => Op.send x.1 x.2)).1 =
      ⟨false,
       s.sendQueue ++ (sends.filter (fun x => !x.2)).map Prod.fst,
       s.persistentMessages ++ (sends.filter (fun x => x.2)).map Prod.fst⟩ := by
  induction sends generalizing s with
  | nil =>
    simp only [List.map_nil, runT, List.filter_nil, List.map_nil,
      List.append_nil]
    rw [← hs]
  | cons x xs ih =>
    obtain ⟨m, p⟩ := x
    cases p with
    | false =>
      simp only [List.map_cons, runT, step, hs, if_false, Bool.false_eq_true,
        ite_false]
      rw [ih _ (by simp [hs])]
      simp [List.filter_cons]
    | true =>
      simp only [List.map_cons, runT, step, hs, Bool.false_eq_true, ite_false,
        ite_true]
      rw [ih _ (by simp [hs])]
      simp [List.filter_cons]

theorem step_not_mem (s : State) (op : Op) (m : Nat)
    (h1 : m ∉ s.persistentMessages) (h2 : m ∉ s.sendQueue)
    (hop : ∀ p, op ≠ Op.send m p) :
    m ∉ (step s op).2 ∧ m ∉ (step s op).1.persistentMessages ∧
      m ∉ (step s op).1.sendQueue := by
  cases op with
  | send m' p' =>
    have hm : m' ≠ m := fun h => hop p' (by rw [h])
    cases p' <;> simp only [step] <;> split <;>
      simp_all [List.mem_append] <;> omega
  | wsOpen =>
    refine ⟨?_, h1, by simp [step]⟩
    simp only [step, List.mem_append]
    rintro (h | h) <;> [exact h1 h; exact h2 h]
  | wsClose => exact ⟨by simp [step], h1, h2⟩

theorem runT_no_transmit (m : Nat) (cont : List Op) :
    ∀ s : State, m ∉ s.persistentMessages → m ∉ s.sendQueue →
      (∀ p : Bool, Op.send m p ∉ cont) →
      ∀ e ∈ (runT s cont).2, m ∉ e := by
  induction cont with
  | nil => intro s _ _ _ e he; simp [runT] at he
  | cons op ops ih =>
    intro s h1 h2 h3 e he
    have hop : ∀ p, op ≠ Op.send m p := by
      intro p h
      exact h3 p (by rw [← h]; exact List.mem_cons_self _ _)
    have hstep := step_not_mem s op m h1 h2 hop
    rw [runT] at he
    rcases (List.mem_cons).1 he with h | h
    · rw [h]; exact hstep.1
    · exact ih (step s op).1 hstep.2.1 hstep.2.2
        (fun p hp => h3 p (List.mem_cons_of_mem _ hp)) e h

end Conn

/-- C3: on the first successful connection, every message sent with
`persistent = true` beforehand is transmitted first, in send order; every
non-persistent message sent while disconnected follows immediately, in
FIFO order; the ephemeral queue is then cleared, so a queued message that
is not also persistent and is not sent again is never retransmitted,
whatever happens later (including reconnects). -/
theorem c3_first_connection_flush
    (sends : List (Nat × Bool)) (m : Nat) (cont : List Conn.Op)
    (hq : m ∈ (sends.filter (fun x => !x.2)).map Prod.fst)
    (hp : m ∉ (sends.filter (fun x => x.2)).map Prod.fst)
    (hfresh : ∀ p : Bool, Conn.Op.send m p ∉ cont) :
    (Conn.firstOpen sends).2 =
        (sends.filter (fun x => x.2)).map Prod.fst
          ++ (sends.filter (fun x => !x.2)).map Prod.fst
      ∧ (Conn.firstOpen sends).1.sendQueue = []
      ∧ ∀ e ∈ (Conn.runT (Conn.firstOpen sends).1 cont).2, m ∉ e := by
  have hsp : Conn.sendPhase sends =
      ⟨false, (sends.filter (fun x => !x.2)).map Prod.fst,
        (sends.filter (fun x => x.2)).map Prod.fst⟩ := by
    have := Conn.runT_sends Conn.init rfl sends
    simpa [Conn.sendPhase, Conn.init] using this
  have hfo : Conn.firstOpen sends =
      (⟨true, [], (sends.filter (fun x => x.2)).map Prod.fst⟩,
        (sends.filter (fun x => x.2)).map Prod.fst
          ++ (sends.filter (fun x => !x.2)).map Prod.fst) := by
    rw [Conn.firstOpen, hsp]; rfl
  refine ⟨by rw [hfo], by rw [hfo], ?_⟩
  rw [hfo]
  exact Conn.runT_no_transmit m cont _ hp (by simp) hfresh

theorem c3_witness :
    (Conn.firstOpen [(1, true), (2, false), (3, true), (4, false)]).2
        = [1, 3, 2, 4]
      ∧ (Conn.firstOpen [(1, true), (2, false), (3, true), (4, false)]).1.sendQueue
        = []
      ∧ ∀ e ∈ (Conn.runT
            (Conn.firstOpen [(1, true), (2, false), (3, true), (4, false)]).1
            [Conn.Op.wsClose, Conn.Op.wsOpen]).2, 2 ∉ e := by
  have h := c3_first_connection_flush
    [(1, true), (2, false), (3, true), (4, false)] 2
    [Conn.Op.wsClose, Conn.Op.wsOpen]
    (by decide) (by decide) (by decide)
  exact ⟨by rw [h.1]; rfl, h.2.1, h.2.2⟩

/-- C10: the persistent message list only grows — after any event sequence
it is exactly the ordered list of messages passed to `send(·, true)`, and
extending the sequence only appends to it — every `wsOpen` retransmits the
whole list (before the queue flush), and every wire command emitted by
`RemoteClass.on`/`off` (register-listener and unregister-listener alike)
is sent with `persistent = true`, so once sent it is retransmitted on
every later successful (re)connection. -/
theorem c10_persistent_replay_monotone (ops more : List Conn.Op) :
    (Conn.runT Conn.init ops).1.persistentMessages = Conn.persistentOf ops
      ∧ (Conn.runT Conn.init (ops ++ more)).1.persistentMessages
        = Conn.persistentOf ops ++ Conn.persistentOf more
      ∧ (∀ s : Conn.State,
          (Conn.step s Conn.Op.wsOpen).2 = s.persistentMessages ++ s.sendQueue)
      ∧ (∀ (e : String) (cs : RClass.St) (op : RClass.Op),
          ∀ c ∈ (RClass.step e cs op).2, c.persistent = true) := by
  refine ⟨?_, ?_, fun s => rfl, ?_⟩
  · simpa [Conn.init] using Conn.runT_persistent Conn.init ops
  · have := Conn.runT_persistent Conn.init (ops ++ more)
    simpa [Conn.init, Conn.persistentOf_append] using this
  · intro e cs op c hc
    cases op with
    | onEv cb lazy =>
      simp only [RClass.step] at hc
      split at hc <;> simp_all
    | offEv cb =>
      simp only [RClass.step] at hc
      split at hc <;> split at hc <;> simp_all

theorem c10_witness :
    (Conn.runT Conn.init
        [Conn.Op.send 5 true, Conn.Op.send 6 false]).1.persistentMessages = [5]
      ∧ (Conn.runT Conn.init
          ([Conn.Op.send 5 true, Conn.Op.send 6 false]
            ++ [Conn.Op.wsOpen, Conn.Op.wsClose, Conn.Op.send 7 true])).1.persistentMessages
        = [5] ++ [7]
      ∧ (Conn.step ⟨false, [9], [5, 7]⟩ Conn.Op.wsOpen).2 = [5, 7] ++ [9]
      ∧ ∀ c ∈ (RClass.step "blockchain-head-changed" RClass.init
          (RClass.Op.onEv 0 false)).2, c.persistent = true := by
  have h := c10_persistent_replay_monotone
    [Conn.Op.send 5 true, Conn.Op.send 6 false]
    [Conn.Op.wsOpen, Conn.Op.wsClose, Conn.Op.send 7 true]
  refine ⟨by rw [h.1]; rfl, by rw [h.2.1]; rfl,
    h.2.2.1 ⟨false, [9], [5, 7]⟩, h.2.2.2 _ _ _⟩


theorem countRegister_append (a b : List WireCmd) :
    countRegister (a ++ b) = countRegister a + countRegister b := by
  simp [countRegister]

theorem countUnregister_append (a b : List WireCmd) :
    countUnregister (a ++ b) = countUnregister a + countUnregister b := by
  simp [countUnregister]

namespace RClass

/-- Main induction for claim C1: for runs without the defer flag, starting
from any state satisfying the reachability invariant (`_registeredServerEvents`
membership coincides with a nonempty listener list; no listeners without a
table entry), the emitted `register-listener` commands are exactly the
zero→nonzero listener-count transitions and the `unregister-listener`
commands exactly the nonzero→zero ones. -/
theorem run_counts (e : String) (ops : List Op)
    (hnl : ∀ op ∈ ops, Op.isLazyOn op = false) :
    ∀ s : St, s.registered = !s.listeners.isEmpty →
      (s.hasEntry = false → s.listeners = []) →
      countRegister (run e s ops).2 = (transitions e s ops).1 ∧
      countUnregister (run e s ops).2 = (transitions e s ops).2 := by
  induction ops with
  | nil =>
    intro s _ _
    simp [run, transitions, countRegister, countUnregister]
  | cons op ops ih =>
    have hnl' : ∀ op ∈ ops, Op.isLazyOn op = false := fun o h =>
      hnl o (List.mem_cons_of_mem _ h)
    intro s h1 h2
    rcases s with ⟨hEn, l, r⟩
    simp only at h1 h2
    cases op with
    | onEv cb lazy =>
      have hlz : lazy = false := by
        cases lazy
        · rfl
        · simpa [Op.isLazyOn] using hnl _ (List.mem_cons_self _ _)
      subst hlz
      cases r with
      | false =>
        have hl : l = [] := by
          cases l with
          | nil => rfl
          | cons a as => simp at h1
        subst hl
        have hstep : step e ⟨hEn, [], false⟩ (Op.onEv cb false) =
            (⟨true, [cb], true⟩, [⟨"register-listener", e, none, true⟩]) := by
          simp [step]
        have hrec := ih hnl' ⟨true, [cb], true⟩ (by simp) (by simp)
        refine ⟨?_, ?_⟩
        · simp only [run, transitions, hstep, countRegister_append]
          rw [hrec.1]
          simp [countRegister]
        · simp only [run, transitions, hstep, countUnregister_append]
          rw [hrec.2]
          simp [countUnregister]
      | true =>
        have hne : l.isEmpty = false := by
          cases h : l.isEmpty
          · rfl
          · rw [h] at h1; simp at h1
        have hstep : step e ⟨hEn, l, true⟩ (Op.onEv cb false) =
            (⟨true, l ++ [cb], true⟩, []) := by
          simp [step]
        have hrec := ih hnl' ⟨true, l ++ [cb], true⟩ (by simp) (by simp)
        refine ⟨?_, ?_⟩
        · simp only [run, transitions, hstep, countRegister_append]
          rw [hrec.1]
          simp [countRegister, hne]
        · simp only [run, transitions, hstep, countUnregister_append]
          rw [hrec.2]
          simp [countUnregister, hne]
    | offEv cb =>
      cases hEn with
      | false =>
        have hl : l = [] := h2 rfl
        subst hl
        have hr : r = false := by simpa using h1
        subst hr
        have hstep : step e ⟨false, [], false⟩ (Op.offEv cb) =
            (⟨false, [], false⟩, []) := by
          simp [step]
        have hrec := ih hnl' ⟨false, [], false⟩ (by simp) (by simp)
        refine ⟨?_, ?_⟩
        · simp only [run, transitions, hstep, countRegister_append]
          rw [hrec.1]
          simp [countRegister]
        · simp only [run, transitions, hstep, countUnregister_append]
          rw [hrec.2]
          simp [countUnregister]
      | true =>
        cases r with
        | false =>
          have hl : l = [] := by
            cases l with
            | nil => rfl
            | cons a as => simp at h1
          subst hl
          have hstep : step e ⟨true, [], false⟩ (Op.offEv cb) =
              (⟨true, [], false⟩, []) := by
            simp [step]
          have hrec := ih hnl' ⟨true, [], false⟩ (by simp) (by simp)
          refine ⟨?_, ?_⟩
          · simp only [run, transitions, hstep, countRegister_append]
            rw [hrec.1]
            simp [countRegister]
          · simp only [run, transitions, hstep, countUnregister_append]
            rw [hrec.2]
            simp [countUnregister]
        | true =>
          have hne : l.isEmpty = false := by
            cases h : l.isEmpty
            · rfl
            · rw [h] at h1; simp at h1
          cases he : (l.erase cb).isEmpty with
          | true =>
            have hstep : step e ⟨true, l, true⟩ (Op.offEv cb) =
                (⟨true, l.erase cb, false⟩,
                  [⟨"unregister-listener", e, none, true⟩]) := by
              simp [step, he]
            have hrec := ih hnl' ⟨true, l.erase cb, false⟩
              (by simp [he]) (by simp)
            refine ⟨?_, ?_⟩
            · simp only [run, transitions, hstep, countRegister_append]
              rw [hrec.1]
              simp [countRegister, hne, he]
            · simp only [run, transitions, hstep, countUnregister_append]
              rw [hrec.2]
              simp [countUnregister, hne, he]
          | false =>
            have hstep : step e ⟨true, l, true⟩ (Op.offEv cb) =
                (⟨true, l.erase cb, true⟩, []) := by
              simp [step, he]
            have hrec := ih hnl' ⟨true, l.erase cb, true⟩
              (by simp [he]) (by simp)
            refine ⟨?_, ?_⟩
            · simp only [run, transitions, hstep, countRegister_append]
              rw [hrec.1]
              simp [countRegister, hne, he]
            · simp only [run, transitions, hstep, countUnregister_append]
              rw [hrec.2]
              simp [countUnregister, hne, he]

end RClass

/-- C1: over any sequence of `on(type, cb)` calls without the
defer/lazyRegister flag and `off(type, cb)` calls on one local event type
of a mirrored entity, starting from a fresh instance, the number of
`register-listener` wire commands sent for the mapped server event equals
the number of zero→nonzero transitions of the local listener count — hence
at most one register is sent during any period in which at least one local
listener exists — and the number of `unregister-listener` commands equals
the number of nonzero→zero transitions, i.e. exactly one is sent each time
the listener count returns to zero. -/
theorem c1_remoteclass_wire_idempotency (e : String) (ops : List RClass.Op)
    (hnl : ∀ op ∈ ops, RClass.Op.isLazyOn op = false) :
    countRegister (RClass.run e RClass.init ops).2
        = (RClass.transitions e RClass.init ops).1
      ∧ countUnregister (RClass.run e RClass.init ops).2
        = (RClass.transitions e RClass.init ops).2 :=
  RClass.run_counts e ops hnl RClass.init rfl (fun _ => rfl)

theorem c1_witness :
    countRegister (RClass.run "blockchain-head-changed" RClass.init
        [RClass.Op.onEv 0 false, RClass.Op.onEv 1 false, RClass.Op.offEv 0,
         RClass.Op.offEv 1, RClass.Op.onEv 2 false, RClass.Op.offEv 2]).2
      = (RClass.transitions "blockchain-head-changed" RClass.init
        [RClass.Op.onEv 0 false, RClass.Op.onEv 1 false, RClass.Op.offEv 0,
         RClass.Op.offEv 1, RClass.Op.onEv 2 false, RClass.Op.offEv 2]).1
    ∧ countUnregister (RClass.run "blockchain-head-changed" RClass.init
        [RClass.Op.onEv 0 false, RClass.Op.onEv 1 false, RClass.Op.offEv 0,
         RClass.Op.offEv 1, RClass.Op.onEv 2 false, RClass.Op.offEv 2]).2
      = (RClass.transitions "blockchain-head-changed" RClass.init
        [RClass.Op.onEv 0 false, RClass.Op.onEv 1 false, RClass.Op.offEv 0,
         RClass.Op.offEv 1, RClass.Op.onEv 2 false, RClass.Op.offEv 2]).2 :=
  c1_remoteclass_wire_idempotency "blockchain-head-changed"
    [RClass.Op.onEv 0 false, RClass.Op.onEv 1 false, RClass.Op.offEv 0,
     RClass.Op.offEv 1, RClass.Op.onEv 2 false, RClass.Op.offEv 2]
    (by decide)

namespace Chain

theorem runHeads_spec (heads : List HeadInfo) :
    ∀ s : St,
      (runHeads s heads).2 =
        (List.range heads.length).map
          (fun i => (s.height + i + 1) % 20 == 0)
      ∧ (runHeads s heads).1.height = s.height + heads.length
      ∧ (runHeads s heads).1.totalWork =
          s.totalWork + (heads.map HeadInfo.difficulty).sum := by
  induction heads with
  | nil => intro s; simp [runHeads]
  | cons h hs ih =>
    intro s
    have hrec := ih ⟨h, h.hsh, s.height + 1, s.totalWork + h.difficulty⟩
    refine ⟨?_, ?_, ?_⟩
    · simp only [runHeads, headChanged]
      rw [hrec.1]
      simp only [List.length_cons, List.range_succ_eq_map, List.map_cons,
        List.map_map]
      refine congrArg₂ List.cons ?_ ?_
      · congr 1
      · apply List.map_congr_left
        intro a _
        simp only [Function.comp]
        congr 1
        omega
    · simp only [runHeads, headChanged]
      rw [hrec.2.1]
      simp
      omega
    · simp only [runHeads, headChanged]
      rw [hrec.2.2]
      simp [List.map_cons]
      omega

end Chain

/-- C7 counterexample: the claim says a full-state resync request happens
exactly on multiples of 20 of the head-changed events received, and in
particular that 19 consecutive events cause none.  Starting from a mirrored
height of 1 (any height not divisible by 20), the 19th event — not a
multiple of 20 — already issues the full-state request, because the code
tests `this.height % 20 === 0` on the mirrored chain height, not on the
number of events received. -/
theorem c7_counterexample :
    (Chain.runHeads ⟨⟨0, 0⟩, 0, 1, 0⟩ (List.replicate 19 ⟨0, 1⟩)).2
        = List.replicate 18 false ++ [true]
      ∧ 19 % 20 ≠ 0 := by decide

/-- C7 (amended): each head-changed event performs only the incremental
update (head, headHash, height + 1, totalWork + difficulty), and the n-th
event (1-based) issues a full-state resync request iff the resulting
mirrored height `initialHeight + n` is divisible by 20.  When the height at
subscription time is itself divisible by 20 (e.g. 0), this is exactly
"every 20th event": the first 19 events issue no full-state request and
the 20th does. -/
theorem c7_resync_on_height_multiples (s : Chain.St)
    (heads : List Chain.HeadInfo) :
    (Chain.runHeads s heads).2 =
        (List.range heads.length).map (fun i => (s.height + i + 1) % 20 == 0)
      ∧ (Chain.runHeads s heads).1.height = s.height + heads.length
      ∧ (Chain.runHeads s heads).1.totalWork =
          s.totalWork + (heads.map Chain.HeadInfo.difficulty).sum
      ∧ (s.height % 20 = 0 →
          (Chain.runHeads s heads).2 =
            (List.range heads.length).map (fun i => (i + 1) % 20 == 0)) := by
  have h := Chain.runHeads_spec heads s
  refine ⟨h.1, h.2.1, h.2.2, fun hz => ?_⟩
  rw [h.1]
  apply List.map_congr_left
  intro a _
  congr 1
  omega

theorem c7_witness :
    (Chain.runHeads ⟨⟨0, 0⟩, 0, 0, 0⟩ (List.replicate 20 ⟨3, 2⟩)).2
        = (List.range 20).map (fun i => (0 + i + 1) % 20 == 0)
      ∧ (Chain.runHeads ⟨⟨0, 0⟩, 0, 0, 0⟩ (List.replicate 20 ⟨3, 2⟩)).1.height
        = 0 + 20
      ∧ (Chain.runHeads ⟨⟨0, 0⟩, 0, 0, 0⟩ (List.replicate 20 ⟨3, 2⟩)).1.totalWork
        = 0 + ((List.replicate 20 (⟨3, 2⟩ : Chain.HeadInfo)).map
            Chain.HeadInfo.difficulty).sum
      ∧ (Chain.runHeads ⟨⟨0, 0⟩, 0, 0, 0⟩ (List.replicate 20 ⟨3, 2⟩)).2
        = (List.range 20).map (fun i => (i + 1) % 20 == 0) := by
  have h := c7_resync_on_height_multiples ⟨⟨0, 0⟩, 0, 0, 0⟩
    (List.replicate 20 ⟨3, 2⟩)
  exact ⟨by rw [h.1]; rfl, by rw [h.2.1]; rfl, h.2.2.1,
    by rw [h.2.2.2 rfl]; rfl⟩

/-- C5: `RemoteAPI._broadcast(type, data)` does nothing when the listener
registry has no entry for the wire type; otherwise the sends it performs
are exactly one copy of the single serialized `{type, data}` message to
each socket that is registered for that type and whose connection is still
open — closed sockets are skipped without error, and no socket outside the
entry ever receives the message. -/
theorem c5_broadcast_exact (st : Hub.St) (openWs : Nat → Bool) (t : String)
    (d : Option Nat) :
    (getEntry? st.listeners t = none → Hub.broadcast st openWs t d = [])
      ∧ ∀ ws msg, (ws, msg) ∈ Hub.broadcast st openWs t d ↔
          ((∃ e, getEntry? st.listeners t = some e ∧ ws ∈ e)
            ∧ openWs ws = true ∧ msg = ⟨t, d⟩) := by
  constructor
  · intro h
    simp [Hub.broadcast, h]
  · intro ws msg
    cases he : getEntry? st.listeners t with
    | none =>
      simp only [Hub.broadcast, he]
      constructor
      · intro h
        exact absurd h (List.not_mem_nil _)
      · rintro ⟨⟨e', he', _⟩, _, _⟩
        exact Option.noConfusion he'
    | some e =>
      simp only [Hub.broadcast, he]
      constructor
      · intro h
        rcases List.mem_map.1 h with ⟨w, hw, heq⟩
        rcases List.mem_filter.1 hw with ⟨hwe, hwo⟩
        cases heq
        exact ⟨⟨e, rfl, hwe⟩, hwo, rfl⟩
      · rintro ⟨⟨e', he', hwse⟩, hwo, rfl⟩
        injection he' with h
        subst h
        exact List.mem_map.2 ⟨ws, List.mem_filter.2 ⟨hwse, hwo⟩, rfl⟩

theorem c5_witness :
    Hub.broadcast ⟨[("network-peers-changed", [1, 2])]⟩
        (fun ws => !(ws == 2)) "miner-started" none = []
      ∧ (1, ({ type := "network-peers-changed", data := some 7 } : Hub.WireMsg))
          ∈ Hub.broadcast ⟨[("network-peers-changed", [1, 2])]⟩
            (fun ws => !(ws == 2)) "network-peers-changed" (some 7) := by
  have h1 := c5_broadcast_exact ⟨[("network-peers-changed", [1, 2])]⟩
    (fun ws => !(ws == 2)) "miner-started" none
  have h2 := c5_broadcast_exact ⟨[("network-peers-changed", [1, 2])]⟩
    (fun ws => !(ws == 2)) "network-peers-changed" (some 7)
  refine ⟨h1.1 (by decide), (h2.2 1 _).mpr ⟨⟨[1, 2], by decide, by decide⟩,
    by decide, rfl⟩⟩

/-- C6: the claim states that on socket close the hub removes the socket
from every registry entry.  In the code, `_onConnection` installs only a
`message` handler; no `close` handler exists and `_unregisterListeners` is
never invoked, so after socket 7 registers for `network-peers-changed` and
then closes, the registry still lists socket 7 for that type — while the
(dead) `_unregisterListeners` helper, had it been called, would have
emptied the entry. -/
theorem c6_close_retains_registry :
    getEntry? (Hub.hubRun Hub.init
        [Hub.Ev.msg 7 (Hub.ClientCmd.register "network-peers-changed"),
         Hub.Ev.close 7]).listeners "network-peers-changed" = some [7]
      ∧ getEntry? (Hub.unregisterListeners (Hub.hubRun Hub.init
          [Hub.Ev.msg 7 (Hub.ClientCmd.register "network-peers-changed"),
           Hub.Ev.close 7]) 7).listeners "network-peers-changed"
        = some [] := by
  decide

theorem getEntry?_setEntry_self (L : List (String × List Nat)) (t : String)
    (v : List Nat) : getEntry? (setEntry L t v) t = some v := by
  induction L with
  | nil => simp [setEntry, getEntry?, List.find?]
  | cons q rest ih =>
    by_cases h : (q.1 == t) = true
    · simp [setEntry, h, getEntry?, List.find?]
    · have hf : (q.1 == t) = false := by
        cases hb : (q.1 == t)
        · rfl
        · exact absurd hb h
      simp only [setEntry, hf, Bool.false_eq_true, if_false]
      simp only [getEntry?, List.find?] at ih ⊢
      rw [hf]
      exact ih

namespace RAcc

theorem getEntry?_obsOn (L : List (String × List Nat)) (k : String) (cb : Nat) :
    getEntry? (obsOn L k cb) k = some (((getEntry? L k).getD []) ++ [cb]) :=
  getEntry?_setEntry_self L k _

theorem obsOff_none (L : List (String × List Nat)) (k : String) (cb : Nat)
    (h : getEntry? L k = none) : obsOff L k cb = L := by
  simp [obsOff, h]

theorem getEntry?_obsOff_some (L : List (String × List Nat)) (k : String)
    (cb : Nat) (e : List Nat) (h : getEntry? L k = some e) :
    getEntry? (obsOff L k cb) k = some (e.erase cb) := by
  simp [obsOff, h, getEntry?_setEntry_self]

/-- Main induction for claim C2: all calls carry keys that normalize to the
hex key `k` and none uses the defer flag; from any state whose
`_registeredAccountListeners` multiplicity of `k` matches "listener count
for `k` nonzero", the run succeeds, emits exactly one keyed
`register-listener` per zero→nonzero transition of `k`'s listener count
and one keyed `unregister-listener` per nonzero→zero transition, and never
touches the plain `_registeredServerEvents` set. -/
theorem runAcc_counts (k : String) (hk : isHex k = true) (ops : List Op)
    (hkeys : ∀ op ∈ ops, jsToLower op.key = k)
    (hnl : ∀ op ∈ ops, op.isLazyOn = false) :
    ∀ s : St,
      s.regAccount.count k = (if countK s k = 0 then 0 else 1) →
      ∃ s' cs, runAcc s ops = .ok (s', cs)
        ∧ countRegister cs = (transitionsAcc k s ops).1
        ∧ countUnregister cs = (transitionsAcc k s ops).2
        ∧ s'.regServer = s.regServer := by
  induction ops with
  | nil =>
    intro s _
    exact ⟨s, [], rfl, by simp [transitionsAcc, countRegister],
      by simp [transitionsAcc, countUnregister], rfl⟩
  | cons op ops ih =>
    have hkeys' : ∀ o ∈ ops, jsToLower o.key = k := fun o h =>
      hkeys o (List.mem_cons_of_mem _ h)
    have hnl' : ∀ o ∈ ops, o.isLazyOn = false := fun o h =>
      hnl o (List.mem_cons_of_mem _ h)
    intro s hinv
    cases op with
    | onEv key cb lazy =>
      have hkey : jsToLower key = k := hkeys _ (List.mem_cons_self _ _)
      have hlz : lazy = false := by
        cases lazy
        · rfl
        · simpa [Op.isLazyOn] using hnl _ (List.mem_cons_self _ _)
      subst hlz
      by_cases hc : s.regAccount.contains k = true
      · -- already registered: no wire command
        have hmem : k ∈ s.regAccount := by simpa using hc
        have hcount : 0 < s.regAccount.count k := List.count_pos_iff.2 hmem
        have hK : ¬ countK s k = 0 := by
          intro h0
          rw [h0] at hinv
          simp at hinv
          omega
        have hstep : stepAcc s (Op.onEv key cb false) =
            .ok ({ s with listeners := obsOn s.listeners k cb }, []) := by
          simp [stepAcc, stepOn, hkey, hk, hc, hmem]
        have hK1 : countK { s with listeners := obsOn s.listeners k cb } k
            = countK s k + 1 := by
          simp [countK, getEntry?_obsOn]
        have hinv' : ({ s with listeners := obsOn s.listeners k cb } :
            St).regAccount.count k
            = (if countK { s with listeners := obsOn s.listeners k cb } k = 0
                then 0 else 1) := by
          rw [hK1]
          simp only [if_neg (Nat.succ_ne_zero _)]
          rw [hinv, if_neg hK]
        obtain ⟨s', cs', heq, hr, hu, hsrv⟩ := ih hkeys' hnl' _ hinv'
        refine ⟨s', cs', ?_, ?_, ?_, hsrv⟩
        · simp only [runAcc, hstep, heq, List.nil_append]
        · simp only [transitionsAcc, hstep, countRegister_append]
          simp only [hK1]
          rw [hr]
          simp [hK, countRegister]
        · simp only [transitionsAcc, hstep, countUnregister_append]
          simp only [hK1]
          rw [hu]
          simp [hK, countUnregister]
      · -- first listener for the key: one keyed register-listener
        have hmem : k ∉ s.regAccount := by simpa using hc
        have hcf : s.regAccount.contains k = false := by simpa using hc
        have hcount : s.regAccount.count k = 0 := List.count_eq_zero.2 hmem
        have hK : countK s k = 0 := by
          by_contra h0
          rw [hinv, if_neg h0] at hcount
          omega
        have hstep : stepAcc s (Op.onEv key cb false) =
            .ok ({ s with listeners := obsOn s.listeners k cb, regAccount := s.regAccount ++ [k] },
              [⟨"register-listener", accountsAccountChanged, some k, true⟩]) := by
          simp [stepAcc, stepOn, hkey, hk, hcf, hmem]
        have hK1 : countK { s with listeners := obsOn s.listeners k cb, regAccount := s.regAccount ++ [k] } k = countK s k + 1 := by
          simp [countK, getEntry?_obsOn]
        have hinv' : ({ s with listeners := obsOn s.listeners k cb, regAccount := s.regAccount ++ [k] } : St).regAccount.count k
            = (if countK { s with listeners := obsOn s.listeners k cb, regAccount := s.regAccount ++ [k] } k = 0 then 0 else 1) := by
          rw [hK1]
          simp only [if_neg (Nat.succ_ne_zero _)]
          simp [List.count_append, hcount]
        obtain ⟨s', cs', heq, hr, hu, hsrv⟩ := ih hkeys' hnl' _ hinv'
        refine ⟨s', [⟨"register-listener", accountsAccountChanged, some k, true⟩] ++ cs', ?_, ?_, ?_, hsrv⟩
        · simp only [runAcc, hstep, heq]
        · simp only [transitionsAcc, hstep, countRegister_append]
          simp only [hK1]
          rw [hr]
          simp [hK, countRegister]
        · simp only [transitionsAcc, hstep, countUnregister_append]
          simp only [hK1]
          rw [hu]
          simp [hK, countUnregister]
    | offEv key cb =>
      have hkey : jsToLower key = k := hkeys _ (List.mem_cons_self _ _)
      cases hge : getEntry? s.listeners k with
      | none =>
        have hobs : obsOff s.listeners k cb = s.listeners :=
          obsOff_none _ _ _ hge
        have hK : countK s k = 0 := by simp [countK, hge]
        have hstep : stepAcc s (Op.offEv key cb) =
            .ok ({ s with listeners := obsOff s.listeners k cb }, []) := by
          simp [stepAcc, stepOff, hkey, hk, hobs, hge]
        have hK1 : countK { s with listeners := obsOff s.listeners k cb } k
            = 0 := by
          simp [countK, hobs, hge]
        have hinv' : ({ s with listeners := obsOff s.listeners k cb } :
            St).regAccount.count k
            = (if countK { s with listeners := obsOff s.listeners k cb } k = 0
                then 0 else 1) := by
          rw [hK1, if_pos rfl, hinv, if_pos hK]
        obtain ⟨s', cs', heq, hr, hu, hsrv⟩ := ih hkeys' hnl' _ hinv'
        refine ⟨s', cs', ?_, ?_, ?_, hsrv⟩
        · simp only [runAcc, hstep, heq, List.nil_append]
        · simp only [transitionsAcc, hstep, countRegister_append]
          simp only [hK1]
          rw [hr]
          simp [hK, countRegister]
        · simp only [transitionsAcc, hstep, countUnregister_append]
          simp only [hK1]
          rw [hu]
          simp [hK, countUnregister]
      | some e =>
        have hgoff : getEntry? (obsOff s.listeners k cb) k = some (e.erase cb) :=
          getEntry?_obsOff_some _ _ _ _ hge
        have hKe : countK s k = e.length := by simp [countK, hge]
        by_cases he : (e.erase cb).isEmpty = true
        · by_cases hc : s.regAccount.contains k = true
          · -- last listener removed while registered: one keyed unregister
            have hmem : k ∈ s.regAccount := by simpa using hc
            have hcount : 0 < s.regAccount.count k := List.count_pos_iff.2 hmem
            have hK : ¬ countK s k = 0 := by
              intro h0
              rw [h0] at hinv
              simp at hinv
              omega
            have hstep : stepAcc s (Op.offEv key cb) =
                .ok ({ s with listeners := obsOff s.listeners k cb, regAccount := s.regAccount.erase k },
                  [⟨"unregister-listener", accountsAccountChanged, some k, true⟩]) := by
              simp [stepAcc, stepOff, hkey, hk, hgoff, he, hc, hmem]
            have hK1 : countK { s with listeners := obsOff s.listeners k cb, regAccount := s.regAccount.erase k } k = 0 := by
              simp only [countK, hgoff, Option.getD_some]
              simpa [List.isEmpty_iff_length_eq_zero] using he
            have hcnt1 : s.regAccount.count k = 1 := by
              rw [hinv, if_neg hK]
            have hinv' : ({ s with listeners := obsOff s.listeners k cb, regAccount := s.regAccount.erase k } : St).regAccount.count k
                = (if countK { s with listeners := obsOff s.listeners k cb, regAccount := s.regAccount.erase k } k = 0 then 0 else 1) := by
              rw [hK1, if_pos rfl]
              simp [List.count_erase_self, hcnt1]
            obtain ⟨s', cs', heq, hr, hu, hsrv⟩ := ih hkeys' hnl' _ hinv'
            refine ⟨s', [⟨"unregister-listener", accountsAccountChanged, some k, true⟩] ++ cs', ?_, ?_, ?_, hsrv⟩
            · simp only [runAcc, hstep, heq]
            · simp only [transitionsAcc, hstep, countRegister_append]
              simp only [hK1]
              rw [hr]
              simp [hK, countRegister]
            · simp only [transitionsAcc, hstep, countUnregister_append]
              simp only [hK1]
              rw [hu]
              simp [hK, countUnregister]
          · -- entry emptied but key was never wire-registered: no command
            have hmem : k ∉ s.regAccount := by simpa using hc
            have hcf : s.regAccount.contains k = false := by simpa using hc
            have hcount : s.regAccount.count k = 0 := List.count_eq_zero.2 hmem
            have hK : countK s k = 0 := by
              by_contra h0
              rw [hinv, if_neg h0] at hcount
              omega
            have hstep : stepAcc s (Op.offEv key cb) =
                .ok ({ s with listeners := obsOff s.listeners k cb }, []) := by
              simp [stepAcc, stepOff, hkey, hk, hgoff, he, hcf, hmem]
            have hK1 : countK { s with listeners := obsOff s.listeners k cb } k
                = 0 := by
              simp only [countK, hgoff, Option.getD_some]
              simpa [List.isEmpty_iff_length_eq_zero] using he
            have hinv' : ({ s with listeners := obsOff s.listeners k cb } :
                St).regAccount.count k
                = (if countK { s with listeners := obsOff s.listeners k cb } k
                    = 0 then 0 else 1) := by
              rw [hK1, if_pos rfl, hcount]
            obtain ⟨s', cs', heq, hr, hu, hsrv⟩ := ih hkeys' hnl' _ hinv'
            refine ⟨s', cs', ?_, ?_, ?_, hsrv⟩
            · simp only [runAcc, hstep, heq, List.nil_append]
            · simp only [transitionsAcc, hstep, countRegister_append]
              simp only [hK1]
              rw [hr]
              simp [hK, countRegister]
            · simp only [transitionsAcc, hstep, countUnregister_append]
              simp only [hK1]
              rw [hu]
              simp [hK, countUnregister]
        · -- listeners remain for the key: no command
          have hne : e ≠ [] := by
            intro h0
            rw [h0] at he
            simp at he
          have hK : ¬ countK s k = 0 := by
            rw [hKe]
            simpa using hne
          have herase : ¬ (e.erase cb).length = 0 := by
            simpa [List.isEmpty_iff_length_eq_zero] using he
          have hef : (e.erase cb).isEmpty = false := by
            simpa using he
          have hstep : stepAcc s (Op.offEv key cb) =
              .ok ({ s with listeners := obsOff s.listeners k cb }, []) := by
            simp [stepAcc, stepOff, hkey, hk, hgoff, hef]
          have hK1 : countK { s with listeners := obsOff s.listeners k cb } k
              = (e.erase cb).length := by
            simp [countK, hgoff]
          have hinv' : ({ s with listeners := obsOff s.listeners k cb } :
              St).regAccount.count k
              = (if countK { s with listeners := obsOff s.listeners k cb } k
                  = 0 then 0 else 1) := by
            rw [hK1, if_neg herase, hinv, if_neg hK]
          obtain ⟨s', cs', heq, hr, hu, hsrv⟩ := ih hkeys' hnl' _ hinv'
          refine ⟨s', cs', ?_, ?_, ?_, hsrv⟩
          · simp only [runAcc, hstep, heq, List.nil_append]
          · simp only [transitionsAcc, hstep, countRegister_append]
            simp only [hK1]
            rw [hr]
            simp [hK, herase, countRegister]
          · simp only [transitionsAcc, hstep, countUnregister_append]
            simp only [hK1]
            rw [hu]
            simp [hK, herase, countUnregister]

end RAcc

/-- C2: for any sequence of keyed `on`/`off` calls on `RemoteAccounts`
whose keys normalize (lowercase) to the same hex key `k`, none deferred,
the run succeeds and the number of keyed `register-listener` wire commands
equals the number of zero→nonzero transitions of `k`'s local listener
count — not the number of `on` calls — while one `unregister-listener` is
emitted per nonzero→zero transition; the plain `_registeredServerEvents`
set is untouched, the keyed interest being tracked independently in
`_registeredAccountListeners`. -/
theorem c2_keyed_registration_transitions (k : String) (ops : List RAcc.Op)
    (hk : isHex k = true)
    (hkeys : ∀ op ∈ ops, jsToLower op.key = k)
    (hnl : ∀ op ∈ ops, op.isLazyOn = false) :
    ∃ s' cs, RAcc.runAcc RAcc.init ops = .ok (s', cs)
      ∧ countRegister cs = (RAcc.transitionsAcc k RAcc.init ops).1
      ∧ countUnregister cs = (RAcc.transitionsAcc k RAcc.init ops).2
      ∧ s'.regServer = RAcc.init.regServer :=
  RAcc.runAcc_counts k hk ops hkeys hnl RAcc.init
    (by simp [RAcc.init, RAcc.countK, getEntry?, List.find?])

theorem c2_witness :
    ∃ s' cs, RAcc.runAcc RAcc.init
        [RAcc.Op.onEv "ABC123" 1 false, RAcc.Op.onEv "abc123" 2 false,
         RAcc.Op.offEv "abc123" 1, RAcc.Op.offEv "Abc123" 2,
         RAcc.Op.onEv "abc123" 3 false] = .ok (s', cs)
      ∧ countRegister cs = (RAcc.transitionsAcc "abc123" RAcc.init
          [RAcc.Op.onEv "ABC123" 1 false, RAcc.Op.onEv "abc123" 2 false,
           RAcc.Op.offEv "abc123" 1, RAcc.Op.offEv "Abc123" 2,
           RAcc.Op.onEv "abc123" 3 false]).1
      ∧ countUnregister cs = (RAcc.transitionsAcc "abc123" RAcc.init
          [RAcc.Op.onEv "ABC123" 1 false, RAcc.Op.onEv "abc123" 2 false,
           RAcc.Op.offEv "abc123" 1, RAcc.Op.offEv "Abc123" 2,
           RAcc.Op.onEv "abc123" 3 false]).2
      ∧ s'.regServer = RAcc.init.regServer :=
  c2_keyed_registration_transitions "abc123"
    [RAcc.Op.onEv "ABC123" 1 false, RAcc.Op.onEv "abc123" 2 false,
     RAcc.Op.offEv "abc123" 1, RAcc.Op.offEv "Abc123" 2,
     RAcc.Op.onEv "abc123" 3 false]
    (by decide) (by decide) (by decide)

/-- C8: `RemoteAccounts.on` accepts a keyed subscription only for keys in
the component's key format: a key that is neither a hex address (after
lowercasing) nor a supported plain event fails with the invalid-event-type
error thrown by `Observable.on` — nothing is registered locally and no
wire command is sent (the exception propagates before any mutation) —
while any key consisting solely of hex characters is accepted as an
address and its callback is appended to the key's listener list. -/
theorem c8_invalid_key_rejected (s : RAcc.St) (key : String) (cb : Nat)
    (lazy : Bool) :
    (isHex (jsToLower key) = false →
      RAcc.accountsValidEvents.contains (jsToLower key) = false →
      RAcc.stepOn s key cb lazy
        = .error ("Unsupported Event Type " ++ jsToLower key))
    ∧ (isHex (jsToLower key) = true →
      ∃ p, RAcc.stepOn s key cb lazy = .ok p
        ∧ getEntry? p.1.listeners (jsToLower key)
          = some (((getEntry? s.listeners (jsToLower key)).getD []) ++ [cb])) := by
  constructor
  · intro h1 h2
    have hmem : jsToLower key ∉ RAcc.accountsValidEvents := by simpa using h2
    simp [RAcc.stepOn, RAcc.isValidEventAcc, jsToLower_idem, h1, h2, hmem]
  · intro h1
    simp only [RAcc.stepOn, h1, if_true]
    split
    · exact ⟨_, rfl, RAcc.getEntry?_obsOn _ _ _⟩
    · exact ⟨_, rfl, RAcc.getEntry?_obsOn _ _ _⟩

theorem c8_witness :
    RAcc.stepOn RAcc.init "Hello!" 5 false
        = .error ("Unsupported Event Type " ++ jsToLower "Hello!")
      ∧ ∃ p, RAcc.stepOn RAcc.init "AbC123" 5 false = .ok p
          ∧ getEntry? p.1.listeners (jsToLower "AbC123")
            = some (((getEntry? RAcc.init.listeners (jsToLower "AbC123")).getD [])
              ++ [5]) := by
  have h1 := c8_invalid_key_rejected RAcc.init "Hello!" 5 false
  have h2 := c8_invalid_key_rejected RAcc.init "AbC123" 5 false
  exact ⟨h1.1 (by decide) (by decide), h2.2 (by decide)⟩

namespace Obs

theorem resolutionsFor_append {α : Type} (id : Nat) (t₁ t₂ : List (Ev α)) :
    resolutionsFor id (t₁ ++ t₂) =
      resolutionsFor id t₁ ++ resolutionsFor id t₂ := by
  simp [resolutionsFor]

theorem onceCallArgs_append {α : Type} (id cb : Nat) (t₁ t₂ : List (Ev α)) :
    onceCallArgs id cb (t₁ ++ t₂) =
      onceCallArgs id cb t₁ ++ onceCallArgs id cb t₂ := by
  simp [onceCallArgs]

theorem directCallArgs_append {α : Type} (cb : Nat) (t₁ t₂ : List (Ev α)) :
    directCallArgs cb (t₁ ++ t₂) =
      directCallArgs cb t₁ ++ directCallArgs cb t₂ := by
  simp [directCallArgs]

theorem countReq_append {α : Type} (id : Nat) (L₁ L₂ : List (Handler α)) :
    countReq id (L₁ ++ L₂) = countReq id L₁ + countReq id L₂ := by
  simp [countReq]

theorem countReq_all_direct {α : Type} (id : Nat) (L : List (Handler α))
    (h : ∀ x ∈ L, isDirect x = true) : countReq id L = 0 := by
  induction L with
  | nil => simp [countReq]
  | cons x t ih =>
    have hx := h x (List.mem_cons_self _ _)
    cases x with
    | direct c =>
      simp only [countReq, List.filter_cons]
      simpa [countReq] using ih (fun y hy => h y (List.mem_cons_of_mem _ hy))
    | onceH i c => simp [isDirect] at hx
    | requestH i m => simp [isDirect] at hx

theorem eraseId_sublist {α : Type} (L : List (Handler α)) (i : Nat) :
    (eraseId L i).Sublist L := by
  induction L with
  | nil => simp [eraseId]
  | cons h t ih =>
    simp only [eraseId]
    split
    · exact List.sublist_cons_self h t
    · exact List.Sublist.cons₂ h ih

theorem map_hid_eraseId {α : Type} (L : List (Handler α)) (i : Nat) :
    (eraseId L i).map hid = (L.map hid).erase i := by
  induction L with
  | nil => simp [eraseId]
  | cons h t ih =>
    simp only [eraseId, List.map_cons]
    by_cases hh : (hid h == i) = true
    · rw [if_pos hh, List.erase_cons, if_pos hh]
    · have hhf : (hid h == i) = false := by
        cases hb : (hid h == i)
        · rfl
        · exact absurd hb hh
      rw [if_neg hh, List.map_cons, List.erase_cons, if_neg (by simp [hhf]), ih]

theorem eraseId_append_of_ne {α : Type} (A B : List (Handler α)) (i : Nat)
    (hA : ∀ h ∈ A, hid h ≠ i) : eraseId (A ++ B) i = A ++ eraseId B i := by
  induction A with
  | nil => simp
  | cons h t ih =>
    have hh : (hid h == i) = false := by
      simpa using hA h (List.mem_cons_self _ _)
    simp only [List.cons_append, eraseId, hh, Bool.false_eq_true, if_false]
    exact congrArg (h :: ·) (ih (fun x hx => hA x (List.mem_cons_of_mem _ hx)))

theorem eraseId_cons_self {α : Type} (h : Handler α) (t : List (Handler α))
    (i : Nat) (hh : hid h = i) : eraseId (h :: t) i = t := by
  simp [eraseId, hh]

theorem countOnce_zero_of_not_mem {α : Type} (id cb : Nat)
    (L : List (Handler α)) (h : id ∉ L.map hid) : countOnce id cb L = 0 := by
  induction L with
  | nil => simp [countOnce]
  | cons x t ih =>
    simp only [List.map_cons, List.mem_cons, not_or] at h
    have ht := ih h.2
    cases x with
    | direct c => simpa [countOnce, List.filter_cons] using ht
    | onceH i c =>
      have hf : (i == id && c == cb) = false := by
        have hni : ¬ i = id := by
          intro hi
          exact h.1 (by simp [hid, hi])
        simp [hni]
      simpa [countOnce, List.filter_cons, hf] using ht
    | requestH i m => simpa [countOnce, List.filter_cons] using ht

theorem countOnce_le_one {α : Type} (id cb : Nat) (L : List (Handler α))
    (h : (L.map hid).Nodup) : countOnce id cb L ≤ 1 := by
  induction L with
  | nil => simp [countOnce]
  | cons x t ih =>
    simp only [List.map_cons, List.nodup_cons] at h
    have ht := ih h.2
    cases x with
    | direct c => simpa [countOnce, List.filter_cons] using ht
    | onceH i c =>
      by_cases hm : (i == id && c == cb) = true
      · have hi : i = id := by
          simp only [Bool.and_eq_true, beq_iff_eq] at hm
          exact hm.1
        have ht0 : countOnce id cb t = 0 := by
          refine countOnce_zero_of_not_mem id cb t ?_
          rw [← hi]
          simpa [hid] using h.1
        have hcons : countOnce id cb (Handler.onceH i c :: t)
            = countOnce id cb t + 1 := by
          simp [countOnce, List.filter_cons, hm]
        omega
      · have hmf : (i == id && c == cb) = false := by
          cases hb : (i == id && c == cb)
          · rfl
          · exact absurd hb hm
        simpa [countOnce, List.filter_cons, hmf] using ht
    | requestH i m => simpa [countOnce, List.filter_cons] using ht

theorem countOnce_pos_of_mem {α : Type} (id cb : Nat) (L : List (Handler α))
    (h : (Handler.onceH id cb : Handler α) ∈ L) : 0 < countOnce id cb L := by
  have hmem : (Handler.onceH id cb : Handler α) ∈ L.filter fun x =>
      match x with
      | .onceH i c' => i == id && c' == cb
      | _ => false :=
    List.mem_filter.2 ⟨h, by simp⟩
  have hlen := List.length_pos.2 (List.ne_nil_of_mem hmem)
  simpa [countOnce] using hlen

theorem countOnce_eraseId_ne {α : Type} (id cb i : Nat)
    (L : List (Handler α)) (hne : i ≠ id) :
    countOnce id cb (eraseId L i) = countOnce id cb L := by
  induction L with
  | nil => simp [eraseId]
  | cons x t ih =>
    by_cases hx : (hid x == i) = true
    · rw [eraseId_cons_self x t i (by simpa using hx)]
      cases x with
      | direct c => simp [countOnce, List.filter_cons]
      | onceH j c =>
        have hf : (j == id && c == cb) = false := by
          have : ¬ (j == id && c == cb) = true := by
            intro hb
            simp only [Bool.and_eq_true, beq_iff_eq] at hb
            have hj : j = i := by simpa [hid] using hx
            exact hne (by rw [← hj, hb.1])
          cases hb : (j == id && c == cb)
          · rfl
          · exact absurd hb this
        simp [countOnce, List.filter_cons, hf]
      | requestH j m => simp [countOnce, List.filter_cons]
    · have hxf : (hid x == i) = false := by
        cases hb : (hid x == i)
        · rfl
        · exact absurd hb hx
      simp only [eraseId, hxf, Bool.false_eq_true, if_false]
      cases x with
      | direct c => simpa [countOnce, List.filter_cons] using ih
      | onceH j c =>
        simp only [countOnce, List.filter_cons] at ih ⊢
        split <;> simpa [countOnce] using ih
      | requestH j m => simpa [countOnce, List.filter_cons] using ih

theorem countOnce_sublist {α : Type} (id cb : Nat)
    {L₁ L₂ : List (Handler α)} (h : L₁.Sublist L₂) :
    countOnce id cb L₁ ≤ countOnce id cb L₂ :=
  (h.filter _).length_le

/-- Argument discipline of one `fire`: the `once` wrapper always calls its
callback with no argument, a directly registered callback always receives
the fired message. -/
theorem fireAux_args {α : Type} (msg : Msg α) (id cb c : Nat) :
    ∀ (fuel k : Nat) (L : List (Handler α)),
      (∀ a ∈ onceCallArgs id cb (fireAux msg fuel k L).2, a = none)
      ∧ (∀ a ∈ directCallArgs c (fireAux msg fuel k L).2, a = some msg) := by
  intro fuel
  induction fuel with
  | zero => intro k L; simp [fireAux, onceCallArgs, directCallArgs]
  | succ fuel ih =>
    intro k L
    cases hget : L[k]? with
    | none => simp [fireAux, hget, onceCallArgs, directCallArgs]
    | some h =>
      cases h with
      | direct c' =>
        have hih := ih (k+1) L
        simp only [fireAux, hget]
        constructor
        · intro a ha
          simp only [onceCallArgs, List.filterMap_cons] at ha
          exact hih.1 a ha
        · intro a ha
          simp only [directCallArgs, List.filterMap_cons] at ha
          by_cases hc : (c' == c) = true
          · simp only [hc, if_pos rfl] at ha
            rcases (List.mem_cons).1 ha with h1 | h1
            · exact h1
            · exact hih.2 a h1
          · have hcf : (c' == c) = false := by
              cases hb : (c' == c)
              · rfl
              · exact absurd hb hc
            simp only [hcf, Bool.false_eq_true, if_false] at ha
            exact hih.2 a ha
      | onceH i c' =>
        have hih := ih (k+1) (eraseId L i)
        simp only [fireAux, hget]
        constructor
        · intro a ha
          simp only [onceCallArgs, List.filterMap_cons] at ha
          by_cases hm : (i == id && c' == cb) = true
          · simp only [hm, if_pos rfl] at ha
            rcases (List.mem_cons).1 ha with h1 | h1
            · exact h1
            · exact hih.1 a h1
          · have hmf : (i == id && c' == cb) = false := by
              cases hb : (i == id && c' == cb)
              · rfl
              · exact absurd hb hm
            simp only [hmf, Bool.false_eq_true, if_false] at ha
            exact hih.1 a ha
        · intro a ha
          simp only [directCallArgs, List.filterMap_cons] at ha
          exact hih.2 a ha
      | requestH i m =>
        by_cases hm : mmatches m msg = true
        · have hih := ih (k+1) (eraseId L i)
          simp only [fireAux, hget, hm, if_pos rfl]
          constructor
          · intro a ha
            simp only [onceCallArgs, List.filterMap_cons] at ha
            exact hih.1 a ha
          · intro a ha
            simp only [directCallArgs, List.filterMap_cons] at ha
            exact hih.2 a ha
        · have hmf : mmatches m msg = false := by
            cases hb : mmatches m msg
            · rfl
            · exact absurd hb hm
          have hih := ih (k+1) L
          simp only [fireAux, hget, hmf, Bool.false_eq_true, if_false]
          exact hih

end Obs

namespace Obs

theorem onceCallArgs_cons_direct {α : Type} (id cb c' : Nat)
    (a : Option (Msg α)) (t : List (Ev α)) :
    onceCallArgs id cb (.call (.direct c') a :: t) = onceCallArgs id cb t := by
  simp [onceCallArgs, List.filterMap_cons]

theorem onceCallArgs_cons_resolve {α : Type} (id cb i : Nat) (d : α)
    (t : List (Ev α)) :
    onceCallArgs id cb (.resolve i d :: t) = onceCallArgs id cb t := by
  simp [onceCallArgs, List.filterMap_cons]

theorem onceCallArgs_cons_once_self {α : Type} (id cb : Nat)
    (a : Option (Msg α)) (t : List (Ev α)) :
    onceCallArgs id cb (.call (.onceH id cb) a :: t)
      = a :: onceCallArgs id cb t := by
  simp [onceCallArgs, List.filterMap_cons]

theorem onceCallArgs_cons_once_ne {α : Type} (id cb i c' : Nat)
    (hne : ¬ (i = id ∧ c' = cb)) (a : Option (Msg α)) (t : List (Ev α)) :
    onceCallArgs id cb (.call (.onceH i c') a :: t) = onceCallArgs id cb t := by
  simp [onceCallArgs, List.filterMap_cons, hne]

theorem resolutionsFor_cons_call {α : Type} (id : Nat) (h : Handler α)
    (a : Option (Msg α)) (t : List (Ev α)) :
    resolutionsFor id (.call h a :: t) = resolutionsFor id t := by
  simp [resolutionsFor, List.filterMap_cons]

theorem resolutionsFor_cons_resolve_self {α : Type} (id : Nat) (d : α)
    (t : List (Ev α)) :
    resolutionsFor id (.resolve id d :: t) = d :: resolutionsFor id t := by
  simp [resolutionsFor, List.filterMap_cons]

/-- Conservation bound for one `fire`: invocations of the once-wrapper
`(id, cb)` emitted by the fire plus its remaining occurrences never exceed
its occurrences before the fire, and identity-uniqueness of the listener
array is preserved. -/
theorem fireAux_once_bound {α : Type} (msg : Msg α) (id cb : Nat) :
    ∀ (fuel k : Nat) (L : List (Handler α)),
      (L.map hid).Nodup →
      (onceCallArgs id cb (fireAux msg fuel k L).2).length
          + countOnce id cb (fireAux msg fuel k L).1 ≤ countOnce id cb L
      ∧ ((fireAux msg fuel k L).1.map hid).Nodup := by
  intro fuel
  induction fuel with
  | zero =>
    intro k L hnd
    exact ⟨by simp [fireAux, onceCallArgs], by simpa [fireAux] using hnd⟩
  | succ fuel ih =>
    intro k L hnd
    cases hget : L[k]? with
    | none =>
      exact ⟨by simp [fireAux, hget, onceCallArgs],
        by simpa [fireAux, hget] using hnd⟩
    | some h =>
      cases h with
      | direct c' =>
        have hih := ih (k+1) L hnd
        simp only [fireAux, hget]
        refine ⟨?_, hih.2⟩
        rw [onceCallArgs_cons_direct]
        exact hih.1
      | onceH i c' =>
        by_cases hm : (i == id && c' == cb) = true
        · have hi : i = id ∧ c' = cb := by
            simpa [Bool.and_eq_true, beq_iff_eq] using hm
          rw [hi.1, hi.2] at hget
          have hndE : ((eraseId L id).map hid).Nodup := by
            rw [map_hid_eraseId]
            exact hnd.erase id
          have hih := ih (k+1) (eraseId L id) hndE
          have hmem : (Handler.onceH id cb : Handler α) ∈ L :=
            List.getElem?_mem hget
          have hle : countOnce id cb L ≤ 1 := countOnce_le_one id cb L hnd
          have hpos : 0 < countOnce id cb L := countOnce_pos_of_mem id cb L hmem
          have hE0 : countOnce id cb (eraseId L id) = 0 := by
            refine countOnce_zero_of_not_mem id cb _ ?_
            rw [map_hid_eraseId]
            intro hmemE
            exact absurd (hnd.mem_erase_iff.1 hmemE).1 (by simp)
          simp only [fireAux, hget]
          refine ⟨?_, hih.2⟩
          rw [onceCallArgs_cons_once_self, List.length_cons]
          have hrest := hih.1
          rw [hE0] at hrest
          omega
        · have hnm : ¬ (i = id ∧ c' = cb) := by
            intro hcon
            rw [hcon.1, hcon.2] at hm
            simp at hm
          have hndE : ((eraseId L i).map hid).Nodup := by
            rw [map_hid_eraseId]
            exact hnd.erase i
          have hih := ih (k+1) (eraseId L i) hndE
          have hEle : countOnce id cb (eraseId L i) ≤ countOnce id cb L :=
            countOnce_sublist id cb (eraseId_sublist L i)
          simp only [fireAux, hget]
          refine ⟨?_, hih.2⟩
          rw [onceCallArgs_cons_once_ne id cb i c' hnm]
          have hrest := hih.1
          omega
      | requestH i m =>
        by_cases hm : mmatches m msg = true
        · have hndE : ((eraseId L i).map hid).Nodup := by
            rw [map_hid_eraseId]
            exact hnd.erase i
          have hih := ih (k+1) (eraseId L i) hndE
          have hEle : countOnce id cb (eraseId L i) ≤ countOnce id cb L :=
            countOnce_sublist id cb (eraseId_sublist L i)
          simp only [fireAux, hget, hm, if_true]
          refine ⟨?_, hih.2⟩
          rw [onceCallArgs_cons_resolve]
          have hrest := hih.1
          omega
        · have hmf : mmatches m msg = false := by
            cases hb : mmatches m msg
            · rfl
            · exact absurd hb hm
          have hih := ih (k+1) L hnd
          simp only [fireAux, hget, hmf, Bool.false_eq_true, if_false]
          exact hih

end Obs

namespace Obs

/-- If every handler before index `k + i` (from `k` on) is direct and the
handler at `k + i` is the once-wrapper `(id, cb)`, an iteration with
enough fuel reaches and invokes the wrapper. -/
theorem fireAux_hits {α : Type} (msg : Msg α) (id cb : Nat) :
    ∀ (i fuel k : Nat) (L : List (Handler α)),
      (∀ j, j < i → ∃ c', L[k + j]? = some (.direct c')) →
      L[k + i]? = some (.onceH id cb) →
      i < fuel →
      onceCallArgs id cb (fireAux msg fuel k L).2 ≠ [] := by
  intro i
  induction i with
  | zero =>
    intro fuel k L _ honce hfuel
    obtain ⟨fuel, rfl⟩ : ∃ f, fuel = f + 1 := ⟨fuel - 1, by omega⟩
    rw [Nat.add_zero] at honce
    simp only [fireAux, honce]
    rw [onceCallArgs_cons_once_self]
    simp
  | succ i ih =>
    intro fuel k L hdir honce hfuel
    obtain ⟨fuel, rfl⟩ : ∃ f, fuel = f + 1 := ⟨fuel - 1, by omega⟩
    obtain ⟨c', hc'⟩ := hdir 0 (Nat.succ_pos _)
    rw [Nat.add_zero] at hc'
    simp only [fireAux, hc']
    rw [onceCallArgs_cons_direct]
    refine ih fuel (k+1) L ?_ ?_ (by omega)
    · intro j hj
      obtain ⟨c'', hc''⟩ := hdir (j+1) (by omega)
      exact ⟨c'', by rw [show k + 1 + j = k + (j + 1) from by omega]; exact hc''⟩
    · rw [show k + 1 + i = k + (i + 1) from by omega]
      exact honce

/-- If every handler from index `k` on is direct, the iteration leaves the
array unchanged and resolves nothing. -/
theorem fireAux_all_direct {α : Type} (msg : Msg α) (id : Nat) :
    ∀ (fuel k : Nat) (L : List (Handler α)),
      (∀ j h, k ≤ j → L[j]? = some h → isDirect h = true) →
      (fireAux msg fuel k L).1 = L
      ∧ resolutionsFor id (fireAux msg fuel k L).2 = [] := by
  intro fuel
  induction fuel with
  | zero => intro k L _; simp [fireAux, resolutionsFor]
  | succ fuel ih =>
    intro k L hdir
    cases hget : L[k]? with
    | none => simp [fireAux, hget, resolutionsFor]
    | some h =>
      have hd := hdir k h (Nat.le_refl _) hget
      cases h with
      | direct c' =>
        have hih := ih (k+1) L (fun j h hj hg => hdir j h (by omega) hg)
        simp only [fireAux, hget]
        exact ⟨hih.1, by rw [resolutionsFor_cons_call]; exact hih.2⟩
      | onceH i c => simp [isDirect] at hd
      | requestH i m => simp [isDirect] at hd

/-- If from index `k` on every handler is direct except possibly the
pending request `(id, mr)`, and the fired message does not match `mr`,
the iteration changes nothing and resolves nothing. -/
theorem fireAux_inert {α : Type} (msg : Msg α) (id : Nat) (mr : Matcher α)
    (hm : mmatches mr msg = false) :
    ∀ (fuel k : Nat) (L : List (Handler α)),
      (∀ j h, k ≤ j → L[j]? = some h →
        isDirect h = true ∨ h = .requestH id mr) →
      (fireAux msg fuel k L).1 = L
      ∧ resolutionsFor id (fireAux msg fuel k L).2 = [] := by
  intro fuel
  induction fuel with
  | zero => intro k L _; simp [fireAux, resolutionsFor]
  | succ fuel ih =>
    intro k L hdir
    cases hget : L[k]? with
    | none => simp [fireAux, hget, resolutionsFor]
    | some h =>
      have hd := hdir k h (Nat.le_refl _) hget
      have hih := ih (k+1) L (fun j h hj hg => hdir j h (by omega) hg)
      cases h with
      | direct c' =>
        simp only [fireAux, hget]
        exact ⟨hih.1, by rw [resolutionsFor_cons_call]; exact hih.2⟩
      | onceH i c =>
        rcases hd with hd | hd
        · simp [isDirect] at hd
        · exact absurd hd (by simp)
      | requestH i m =>
        rcases hd with hd | hd
        · simp [isDirect] at hd
        · have hi : i = id ∧ m = mr := by
            injection hd with h1 h2
            exact ⟨h1, h2⟩
          have hmm : mmatches m msg = false := by rw [hi.2]; exact hm
          simp only [fireAux, hget, hmm, Bool.false_eq_true, if_false]
          exact hih

/-- Reaching the pending request `(id, mr)` behind a direct-only prefix
with a matching message: the request resolves once with the message's
data, removes itself, and the remaining (all direct) handlers resolve
nothing further. -/
theorem fireAux_req_match {α : Type} (msg : Msg α) (id : Nat)
    (mr : Matcher α) (A B : List (Handler α))
    (hA : ∀ h ∈ A, isDirect h = true) (hAf : ∀ h ∈ A, hid h ≠ id)
    (hB : ∀ h ∈ B, isDirect h = true)
    (hm : mmatches mr msg = true) :
    ∀ (fuel k : Nat), k ≤ A.length →
      A.length + 1 + B.length ≤ fuel + k →
      (fireAux msg fuel k (A ++ .requestH id mr :: B)).1 = A ++ B
      ∧ resolutionsFor id
          (fireAux msg fuel k (A ++ .requestH id mr :: B)).2 = [msg.data] := by
  intro fuel
  induction fuel with
  | zero =>
    intro k hk hfuel
    omega
  | succ fuel ih =>
    intro k hk hfuel
    by_cases hklt : k < A.length
    · have hgetA : A[k]? = some A[k] := List.getElem?_eq_getElem hklt
      have hmemA : A[k] ∈ A := List.getElem_mem hklt
      have hget : (A ++ Handler.requestH id mr :: B)[k]? = some A[k] := by
        rw [List.getElem?_append, if_pos hklt]
        exact hgetA
      have hd := hA _ hmemA
      cases hAk : A[k] with
      | direct c' =>
        rw [hAk] at hget
        have hih := ih (k+1) (by omega) (by omega)
        simp only [fireAux, hget]
        exact ⟨hih.1, by rw [resolutionsFor_cons_call]; exact hih.2⟩
      | onceH i c =>
        rw [hAk] at hd
        simp [isDirect] at hd
      | requestH i m =>
        rw [hAk] at hd
        simp [isDirect] at hd
    · have hkeq : k = A.length := by omega
      subst hkeq
      have hget : (A ++ Handler.requestH id mr :: B)[A.length]?
          = some (Handler.requestH id mr) := by
        rw [List.getElem?_append_right (Nat.le_refl _)]
        simp
      have hErase : eraseId (A ++ Handler.requestH id mr :: B) id
          = A ++ B := by
        rw [eraseId_append_of_ne A _ id hAf,
          eraseId_cons_self _ _ _ (by simp [hid])]
      have hrest := fireAux_all_direct msg id fuel (A.length + 1) (A ++ B)
        (fun j h _ hg => by
          have hmem := List.getElem?_mem hg
          rcases List.mem_append.1 hmem with h1 | h1
          · exact hA _ h1
          · exact hB _ h1)
      simp only [fireAux, hget, hm, if_true, hErase]
      refine ⟨hrest.1, ?_⟩
      rw [resolutionsFor_cons_resolve_self, hrest.2]

end Obs

namespace Obs

theorem multiFire_once_bound {α : Type} (id cb : Nat) :
    ∀ (msgs : List (Msg α)) (L : List (Handler α)),
      (L.map hid).Nodup →
      (onceCallArgs id cb (multiFire L msgs).2).length
          + countOnce id cb (multiFire L msgs).1 ≤ countOnce id cb L
      ∧ ((multiFire L msgs).1.map hid).Nodup := by
  intro msgs
  induction msgs with
  | nil =>
    intro L h
    exact ⟨by simp [multiFire, onceCallArgs], by simpa [multiFire] using h⟩
  | cons m ms ih =>
    intro L hnd
    have h1 : (onceCallArgs id cb (fire L m).2).length
        + countOnce id cb (fire L m).1 ≤ countOnce id cb L
        ∧ ((fire L m).1.map hid).Nodup :=
      fireAux_once_bound m id cb L.length 0 L hnd
    have h2 := ih (fire L m).1 h1.2
    constructor
    · simp only [multiFire]
      rw [onceCallArgs_append, List.length_append]
      have ha := h1.1
      have hb := h2.1
      omega
    · simp only [multiFire]
      exact h2.2

theorem multiFire_all_direct {α : Type} (id : Nat) :
    ∀ (msgs : List (Msg α)) (L : List (Handler α)),
      (∀ h ∈ L, isDirect h = true) →
      (multiFire L msgs).1 = L
      ∧ resolutionsFor id (multiFire L msgs).2 = [] := by
  intro msgs
  induction msgs with
  | nil => intro L _; simp [multiFire, resolutionsFor]
  | cons m ms ih =>
    intro L hdir
    have h1 : (fire L m).1 = L ∧ resolutionsFor id (fire L m).2 = [] :=
      fireAux_all_direct m id L.length 0 L
        (fun j h _ hg => hdir h (List.getElem?_mem hg))
    have h2 := ih (fire L m).1 (by rw [h1.1]; exact hdir)
    constructor
    · simp only [multiFire]
      rw [h2.1, h1.1]
    · simp only [multiFire]
      rw [resolutionsFor_append, h1.2, h2.2]
      simp

theorem multiFire_req {α : Type} (id : Nat) (mr : Matcher α)
    (A B : List (Handler α))
    (hA : ∀ h ∈ A, isDirect h = true) (hAf : ∀ h ∈ A, hid h ≠ id)
    (hB : ∀ h ∈ B, isDirect h = true) :
    ∀ msgs : List (Msg α),
      resolutionsFor id (multiFire (A ++ .requestH id mr :: B) msgs).2
        = ((msgs.find? (mmatches mr)).map (fun m => m.data)).toList
      ∧ (multiFire (A ++ .requestH id mr :: B) msgs).1
        = (if (msgs.find? (mmatches mr)).isSome = true then A ++ B
            else A ++ .requestH id mr :: B) := by
  intro msgs
  induction msgs with
  | nil => simp [multiFire, resolutionsFor]
  | cons m ms ih =>
    by_cases hm : mmatches mr m = true
    · have hfind : (m :: ms).find? (mmatches mr) = some m :=
        List.find?_cons_of_pos _ hm
      have h1 : (fire (A ++ Handler.requestH id mr :: B) m).1 = A ++ B
          ∧ resolutionsFor id (fire (A ++ Handler.requestH id mr :: B) m).2
            = [m.data] :=
        fireAux_req_match m id mr A B hA hAf hB hm
          (A ++ Handler.requestH id mr :: B).length 0 (Nat.zero_le _)
          (by simp; omega)
      have h2 := multiFire_all_direct id ms (A ++ B)
        (fun h hh => by
          rcases List.mem_append.1 hh with h1 | h1
          · exact hA _ h1
          · exact hB _ h1)
      constructor
      · simp only [multiFire]
        rw [h1.1, resolutionsFor_append, h1.2, h2.2, hfind]
        simp
      · simp only [multiFire]
        rw [h1.1, h2.1, hfind]
        simp
    · have hmf : mmatches mr m = false := by
        cases hb : mmatches mr m
        · rfl
        · exact absurd hb hm
      have hfind : (m :: ms).find? (mmatches mr) = ms.find? (mmatches mr) :=
        List.find?_cons_of_neg _ (by simp [hmf])
      have h1 : (fire (A ++ Handler.requestH id mr :: B) m).1
            = A ++ Handler.requestH id mr :: B
          ∧ resolutionsFor id (fire (A ++ Handler.requestH id mr :: B) m).2
            = [] :=
        fireAux_inert m id mr hmf
          (A ++ Handler.requestH id mr :: B).length 0 _
          (fun j h _ hg => by
            have hmem := List.getElem?_mem hg
            rcases List.mem_append.1 hmem with h1 | h1
            · exact Or.inl (hA _ h1)
            · rcases List.mem_cons.1 h1 with h2 | h2
              · exact Or.inr h2
              · exact Or.inl (hB _ h2))
      constructor
      · simp only [multiFire]
        rw [h1.1, resolutionsFor_append, h1.2, ih.1, hfind]
        simp
      · simp only [multiFire]
        rw [h1.1, ih.2, hfind]

end Obs

/-- C9: for a listener array with pairwise-distinct closure identities,
(a) within any fire, every invocation of the once-wrapper `(id, cb)`
passes no argument (`undefined`) to its callback and every invocation of a
directly registered callback passes the fired payload; (b) across any
sequence of fires, the wrapper's callback is invoked at most once (its
invocations plus its remaining registrations never exceed its initial
registrations, which are at most one); (c) when the wrapper is registered
behind only direct listeners, a fire invokes it and removes it. -/
theorem c9_once_no_payload {α : Type} (L pre post : List (Obs.Handler α))
    (id cb c : Nat) (msg : Obs.Msg α) (msgs : List (Obs.Msg α))
    (hnd : (L.map Obs.hid).Nodup) :
    (∀ a ∈ Obs.onceCallArgs id cb (Obs.fire L msg).2, a = none)
    ∧ (∀ a ∈ Obs.directCallArgs c (Obs.fire L msg).2, a = some msg)
    ∧ (Obs.onceCallArgs id cb (Obs.multiFire L msgs).2).length
        + Obs.countOnce id cb (Obs.multiFire L msgs).1
        ≤ Obs.countOnce id cb L
    ∧ (Obs.onceCallArgs id cb (Obs.multiFire L msgs).2).length ≤ 1
    ∧ (L = pre ++ .onceH id cb :: post →
        (∀ h ∈ pre, Obs.isDirect h = true) →
        Obs.onceCallArgs id cb (Obs.fire L msg).2 ≠ []
          ∧ Obs.countOnce id cb (Obs.fire L msg).1 = 0) := by
  have hargs := Obs.fireAux_args msg id cb c L.length 0 L
  have hbound := Obs.multiFire_once_bound id cb msgs L hnd
  have hle1 := Obs.countOnce_le_one id cb L hnd
  refine ⟨hargs.1, hargs.2, hbound.1, by have := hbound.1; omega, ?_⟩
  intro hL hpre
  have hlen : pre.length < L.length := by
    rw [hL]
    simp
  have hhits : Obs.onceCallArgs id cb (Obs.fire L msg).2 ≠ [] := by
    refine Obs.fireAux_hits msg id cb pre.length L.length 0 L ?_ ?_ hlen
    · intro j hj
      have hj' : L[0 + j]? = some pre[j] := by
        rw [hL, Nat.zero_add, List.getElem?_append, if_pos hj,
          List.getElem?_eq_getElem hj]
      have hd := hpre _ (List.getElem_mem hj)
      cases hpj : pre[j] with
      | direct c' => exact ⟨c', by rw [hj', hpj]⟩
      | onceH i c'' =>
        rw [hpj] at hd
        simp [Obs.isDirect] at hd
      | requestH i m =>
        rw [hpj] at hd
        simp [Obs.isDirect] at hd
    · rw [hL, Nat.zero_add, List.getElem?_append_right (Nat.le_refl _)]
      simp
  have hfb : (Obs.onceCallArgs id cb (Obs.fire L msg).2).length
      + Obs.countOnce id cb (Obs.fire L msg).1 ≤ Obs.countOnce id cb L
      ∧ (((Obs.fire L msg).1.map Obs.hid)).Nodup :=
    Obs.fireAux_once_bound msg id cb L.length 0 L hnd
  have hpos : 0 < (Obs.onceCallArgs id cb (Obs.fire L msg).2).length :=
    List.length_pos.2 hhits
  exact ⟨hhits, by have := hfb.1; omega⟩

theorem c9_witness :
    (∀ a ∈ Obs.onceCallArgs 10 2
        (Obs.fire [Obs.Handler.direct 1, Obs.Handler.onceH 10 2,
          Obs.Handler.direct 3] (⟨"m", 5⟩ : Obs.Msg Nat)).2, a = none)
    ∧ (∀ a ∈ Obs.directCallArgs 1
        (Obs.fire [Obs.Handler.direct 1, Obs.Handler.onceH 10 2,
          Obs.Handler.direct 3] (⟨"m", 5⟩ : Obs.Msg Nat)).2,
        a = some ⟨"m", 5⟩)
    ∧ (Obs.onceCallArgs 10 2
        (Obs.multiFire [Obs.Handler.direct 1, Obs.Handler.onceH 10 2,
          Obs.Handler.direct 3]
          [(⟨"m", 5⟩ : Obs.Msg Nat), ⟨"m", 6⟩]).2).length
        + Obs.countOnce 10 2
          (Obs.multiFire [Obs.Handler.direct 1, Obs.Handler.onceH 10 2,
            Obs.Handler.direct 3]
            [(⟨"m", 5⟩ : Obs.Msg Nat), ⟨"m", 6⟩]).1
        ≤ Obs.countOnce 10 2 ([Obs.Handler.direct 1, Obs.Handler.onceH 10 2,
            Obs.Handler.direct 3] : List (Obs.Handler Nat))
    ∧ (Obs.onceCallArgs 10 2
        (Obs.multiFire [Obs.Handler.direct 1, Obs.Handler.onceH 10 2,
          Obs.Handler.direct 3]
          [(⟨"m", 5⟩ : Obs.Msg Nat), ⟨"m", 6⟩]).2).length ≤ 1
    ∧ (Obs.onceCallArgs 10 2
        (Obs.fire [Obs.Handler.direct 1, Obs.Handler.onceH 10 2,
          Obs.Handler.direct 3] (⟨"m", 5⟩ : Obs.Msg Nat)).2 ≠ []
        ∧ Obs.countOnce 10 2
          (Obs.fire [Obs.Handler.direct 1, Obs.Handler.onceH 10 2,
            Obs.Handler.direct 3] (⟨"m", 5⟩ : Obs.Msg Nat)).1 = 0) := by
  have h := c9_once_no_payload
    [Obs.Handler.direct 1, Obs.Handler.onceH 10 2, Obs.Handler.direct 3]
    [Obs.Handler.direct 1] [Obs.Handler.direct 3] 10 2 1
    (⟨"m", 5⟩ : Obs.Msg Nat) [⟨"m", 5⟩, ⟨"m", 6⟩] (by decide)
  exact ⟨h.1, h.2.1, h.2.2.1, h.2.2.2.1,
    h.2.2.2.2 rfl (by decide)⟩

/-- C4: with a pending request listener `(id, mr)` registered among
otherwise plain (non-self-removing) message listeners, delivering any
sequence of inbound messages resolves the request exactly once, with the
`data` of the first message satisfying the matcher — a later matching
message resolves nothing further — and upon resolution the listener is
removed from the array (it remains pending iff no message matched). -/
theorem c4_request_resolves_once {α : Type} (A B : List (Obs.Handler α))
    (id : Nat) (mr : Obs.Matcher α) (msgs : List (Obs.Msg α))
    (hA : ∀ h ∈ A, Obs.isDirect h = true)
    (hAf : ∀ h ∈ A, Obs.hid h ≠ id)
    (hB : ∀ h ∈ B, Obs.isDirect h = true) :
    Obs.resolutionsFor id
        (Obs.multiFire (A ++ .requestH id mr :: B) msgs).2
      = ((msgs.find? (Obs.mmatches mr)).map (fun m => m.data)).toList
    ∧ Obs.countReq id (Obs.multiFire (A ++ .requestH id mr :: B) msgs).1
      = (if (msgs.find? (Obs.mmatches mr)).isSome = true then 0 else 1) := by
  have h := Obs.multiFire_req id mr A B hA hAf hB msgs
  refine ⟨h.1, ?_⟩
  rw [h.2]
  by_cases hf : (msgs.find? (Obs.mmatches mr)).isSome = true
  · rw [if_pos hf, if_pos hf, Obs.countReq_append,
      Obs.countReq_all_direct id A hA, Obs.countReq_all_direct id B hB]
  · rw [if_neg hf, if_neg hf, Obs.countReq_append,
      Obs.countReq_all_direct id A hA]
    have : Obs.countReq id (Obs.Handler.requestH id mr :: B)
        = Obs.countReq id B + 1 := by
      simp [Obs.countReq, List.filter_cons]
    rw [this, Obs.countReq_all_direct id B hB]

theorem c4_witness :
    Obs.resolutionsFor 5
        (Obs.multiFire
          ([Obs.Handler.direct 1] ++ .requestH 5 (Obs.Matcher.byType "foo")
            :: [Obs.Handler.direct 2])
          [(⟨"bar", 1⟩ : Obs.Msg Nat), ⟨"foo", 2⟩, ⟨"foo", 3⟩]).2 = [2]
    ∧ Obs.countReq 5
        (Obs.multiFire
          ([Obs.Handler.direct 1] ++ .requestH 5 (Obs.Matcher.byType "foo")
            :: [Obs.Handler.direct 2])
          [(⟨"bar", 1⟩ : Obs.Msg Nat), ⟨"foo", 2⟩, ⟨"foo", 3⟩]).1 = 0 := by
  have h := c4_request_resolves_once [Obs.Handler.direct 1]
    [Obs.Handler.direct 2] 5 (Obs.Matcher.byType "foo")
    [(⟨"bar", 1⟩ : Obs.Msg Nat), ⟨"foo", 2⟩, ⟨"foo", 3⟩]
    (by decide) (by decide) (by decide)
  exact ⟨by rw [h.1]; rfl, by rw [h.2]; rfl⟩
